import Mathlib

/-!
Shallow embedding of the AgentArmada battleship game core in Lean 4.

Part 1: the Board/Ship model (`src/utils/boardUtils.ts`) — grid cells,
placement validation, random fleet placement, shot resolution.

Part 2: the targeting engine (`src/utils/aiUtils.ts`, class `BattleshipAI`) —
hunt/target heuristic search over the shot history.

JavaScript mutation is modelled by explicit state passing.  The ambient
`Math.random()` entropy is modelled by a stream of natural numbers
(`Rng := Nat -> Nat`): each primitive draw consumes the head of the stream;
an integer-uniform draw `Math.floor(Math.random() * n)` is modelled as
`head % n`, which reaches exactly the outcomes the source can reach.
-/

set_option maxHeartbeats 4000000

/-- Cell states, from `types.ts`. -/
inductive CellState where
  | empty
  | ship
  | hit
  | miss
  | sunk
deriving DecidableEq, Repr

/-- One grid cell: a state and, when occupied, the owning ship id
(`shipId?: number` becomes `Option Nat`). -/
structure Cell where
  state : CellState
  shipId : Option Nat
deriving DecidableEq, Repr

/-- The grid: `Board = Cell[][]` (row-major, nominally 10 x 10). -/
abbrev Board := List (List Cell)

/-- A ship, from `types.ts`: id, length, cumulative hits, sunk flag,
placement flag. -/
structure Ship where
  id : Nat
  length : Nat
  hits : Nat
  sunk : Bool
  placed : Bool
deriving DecidableEq, Repr

/-- Result of resolving one shot. -/
inductive ShotResult where
  | hit
  | miss
  | sunk
deriving DecidableEq, Repr

/-- `BOARD_SIZE = 10`. -/
def BOARD_SIZE : Nat := 10

/-- `SHIP_LENGTHS = [5, 4, 3, 3, 2]`. -/
def SHIP_LENGTHS : List Nat := [5, 4, 3, 3, 2]

/-- Read `board[row][col]`; out-of-range reads yield a default empty cell
(the source only indexes in range). -/
def cellAt (b : Board) (row col : Nat) : Cell :=
  (b.getD row []).getD col ⟨CellState.empty, none⟩

/-- Write `board[row][col] = cell` (no-op out of range, as `List.set`). -/
def setCell (b : Board) (row col : Nat) (cell : Cell) : Board :=
  b.set row ((b.getD row []).set col cell)

/-- `createEmptyBoard()`: a 10 x 10 all-empty grid. -/
def createEmptyBoard : Board :=
  List.replicate BOARD_SIZE (List.replicate BOARD_SIZE ⟨CellState.empty, none⟩)

/-- `createShips()`: the five standard ships with zero hits. -/
def createShips : List Ship :=
  (SHIP_LENGTHS.enum).map (fun p => ⟨p.1, p.2, 0, false, false⟩)

/-- `canPlaceShip(board, row, col, length, horizontal)`: the bound check
`col + length > BOARD_SIZE` (resp. rows) followed by an all-cells-empty scan. -/
def canPlaceShip (b : Board) (row col len : Nat) (horizontal : Bool) : Bool :=
  if horizontal then
    if BOARD_SIZE < col + len then false
    else (List.range len).all (fun i => (cellAt b row (col + i)).state == CellState.empty)
  else
    if BOARD_SIZE < row + len then false
    else (List.range len).all (fun i => (cellAt b (row + i) col).state == CellState.empty)

/-- `placeShip(board, row, col, length, horizontal, shipId)`: overwrite the
covered cells with `{ state: 'ship', shipId }`. -/
def placeShip (b : Board) (row col len : Nat) (horizontal : Bool) (sid : Nat) : Board :=
  (List.range len).foldl
    (fun bd i =>
      if horizontal then setCell bd row (col + i) ⟨CellState.ship, some sid⟩
      else setCell bd (row + i) col ⟨CellState.ship, some sid⟩)
    b

/-- Replace the first element satisfying `p` by `f` of it (JS mutates the
object returned by `Array.prototype.find`). -/
def updateFirstMatch (p : Ship → Bool) (f : Ship → Ship) : List Ship → List Ship
  | [] => []
  | s :: rest => if p s then f s :: rest else s :: updateFirstMatch p f rest

/-- `markShipAsSunk(board, shipId)`: the source loops the whole fixed 10 x 10
extent, recoloring every cell owned by `shipId` to `sunk`; per cell that is a
map. -/
def markShipAsSunk (b : Board) (sid : Nat) : Board :=
  b.map
    (fun rowCells => rowCells.map
      (fun cell => if cell.shipId == some sid then { cell with state := CellState.sunk } else cell))

/-- `processShot(board, ships, row, col)`: resolve one shot, returning the
updated board, updated roster and the outcome.  Mirrors the source:
a `ship` cell is recolored `hit`, the owning ship (found by id; an absent
or unmatched `shipId` skips the roster update) gets `hits++`, and on
`hits == length` the ship is flagged sunk, all its cells recolored, and
`'sunk'` returned; any non-`ship` cell is stamped `miss`. -/
def processShot (b : Board) (ships : List Ship) (row col : Nat) :
    Board × List Ship × ShotResult :=
  let cell := cellAt b row col
  if cell.state = CellState.ship then
    let b₁ := setCell b row col { cell with state := CellState.hit }
    match cell.shipId with
    | none => (b₁, ships, ShotResult.hit)
    | some sid =>
      match ships.find? (fun s => s.id == sid) with
      | none => (b₁, ships, ShotResult.hit)
      | some ship =>
        if ship.hits + 1 = ship.length then
          (markShipAsSunk b₁ sid,
           updateFirstMatch (fun s => s.id == sid)
             (fun s => { s with hits := s.hits + 1, sunk := true }) ships,
           ShotResult.sunk)
        else
          (b₁,
           updateFirstMatch (fun s => s.id == sid)
             (fun s => { s with hits := s.hits + 1 }) ships,
           ShotResult.hit)
  else
    (setCell b row col { cell with state := CellState.miss }, ships, ShotResult.miss)

/-- `allShipsSunk(ships)`. -/
def allShipsSunk (ships : List Ship) : Bool :=
  ships.all (fun s => s.sunk)

/-- Random-number stream standing in for ambient `Math.random()`. -/
def Rng : Type := Nat → Nat

/-- Pop the next draw off the stream. -/
def Rng.next (ρ : Rng) : Nat × Rng :=
  (ρ 0, fun n => ρ (n + 1))

/-- Drop the first `n` draws. -/
def Rng.drop (ρ : Rng) (n : Nat) : Rng :=
  fun k => ρ (k + n)

/-- The all-zero stream, used for concrete evaluations. -/
def rng0 : Rng := fun _ => 0

/-- The per-ship retry loop of `placeShipsRandomly`: up to `fuel` draws of
`(horizontal, row, col)`; returns the board, the remaining stream, whether the
ship was placed, and how many draws were consumed.  The source runs it with
`fuel = 100` (`while (!placed && attempts < 100)`). -/
def tryPlaceShip (b : Board) (ship : Ship) (ρ : Rng) : Nat → Board × Rng × Bool × Nat
  | 0 => (b, ρ, false, 0)
  | fuel + 1 =>
    let (d₁, ρ₁) := ρ.next
    let (d₂, ρ₂) := ρ₁.next
    let (d₃, ρ₃) := ρ₂.next
    let horizontal := d₁ % 2 == 0
    let row := d₂ % BOARD_SIZE
    let col := d₃ % BOARD_SIZE
    if canPlaceShip b row col ship.length horizontal then
      (placeShip b row col ship.length horizontal ship.id, ρ₃, true, 1)
    else
      let r := tryPlaceShip b ship ρ₃ fuel
      (r.1, r.2.1, r.2.2.1, r.2.2.2 + 1)

/-- `placeShipsRandomly(board, ships)`: run the 100-attempt loop for each ship
in order.  A ship whose loop exhausts its bound is simply skipped — the
function has no error channel (the source returns `void` and logs nothing)
and continues with the remaining ships. -/
def placeShipsRandomly (b : Board) (ships : List Ship) (ρ : Rng) : Board × Rng :=
  ships.foldl
    (fun acc ship =>
      let r := tryPlaceShip acc.1 ship acc.2 100
      (r.1, r.2.1))
    (b, ρ)

/-! ## Targeting engine (`aiUtils.ts`, class `BattleshipAI`) -/

/-- An engine coordinate.  The source works with raw JS numbers and freely
forms `row - 1` etc., so rows/columns are integers here. -/
structure Coord where
  row : Int
  col : Int
deriving DecidableEq, Repr

/-- Engine mode. -/
inductive Mode where
  | hunt
  | target
deriving DecidableEq, Repr

/-- A probing direction (the string union `'up' | 'down' | 'left' | 'right'`). -/
inductive Dir where
  | up
  | down
  | left
  | right
deriving DecidableEq, Repr

/-- The mutable fields of `BattleshipAI`.  `Set<string>` keyed by the
injective encoding `"row,col"` is modelled as a duplicate-free-by-insertion
list of coordinates queried by membership. -/
structure AIState where
  shotsFired : List Coord
  mode : Mode
  targetQueue : List Coord
  lastHit : Option Coord
  hits : List Coord
  firstHit : Option Coord
  lastProbeDirection : Option Bool
  remainingShipSizes : List Nat
  misses : List Coord
deriving DecidableEq, Repr

/-- The constructor's field values. -/
def initialState : AIState :=
  { shotsFired := []
    mode := Mode.hunt
    targetQueue := []
    lastHit := none
    hits := []
    firstHit := none
    lastProbeDirection := none
    remainingShipSizes := [5, 4, 3, 3, 2]
    misses := [] }

/-- `Set.add` on the modelled coordinate set: no-op when the key is present. -/
def addShot (l : List Coord) (c : Coord) : List Coord :=
  if c ∈ l then l else l ++ [c]

/-- `this.hasShot(row, col)` — `Set.has` on the fired set. -/
def AIState.hasShot (s : AIState) (row col : Int) : Bool :=
  decide ((⟨row, col⟩ : Coord) ∈ s.shotsFired)

/-- `this.isValid(row, col)`. -/
def isValid (row col : Int) : Bool :=
  decide (0 ≤ row ∧ row < 10 ∧ 0 ≤ col ∧ col < 10)

/-- The hit-membership test `this.hits.some(hit => hit.row === r && hit.col === c)`. -/
def AIState.isHitAt (s : AIState) (row col : Int) : Bool :=
  s.hits.any (fun h => h.row == row && h.col == col)

/-- Swap two positions of a list (identity when either index is out of range). -/
def listSwap {α : Type} (l : List α) (i j : Nat) : List α :=
  match l.get? i, l.get? j with
  | some a, some b => (l.set i b).set j a
  | _, _ => l

/-- The Fisher–Yates downward loop of `getOrthogonalNeighbors`: for
`i = len-1 .. 1` draw `j ∈ [0, i]` and swap. -/
def fyGo {α : Type} (ρ : Rng) (l : List α) : Nat → List α × Rng
  | 0 => (l, ρ)
  | i + 1 =>
    let (d, ρ') := ρ.next
    let j := d % (i + 2)
    fyGo ρ' (listSwap l (i + 1) j) i

/-- The in-place shuffle (`for (let i = n-1; i > 0; i--) ...`). -/
def shuffle {α : Type} (ρ : Rng) (l : List α) : List α × Rng :=
  match l.length with
  | 0 => (l, ρ)
  | n + 1 => fyGo ρ l n

/-- `getOrthogonalNeighbors(row, col)`: the in-bounds unfired orthogonal
neighbours in up/down/left/right order, then shuffled. -/
def getOrthogonalNeighbors (ρ : Rng) (s : AIState) (row col : Int) : List Coord × Rng :=
  let neighbors :=
    ([⟨row - 1, col⟩, ⟨row + 1, col⟩, ⟨row, col - 1⟩, ⟨row, col + 1⟩] : List Coord).filter
      (fun c => isValid c.row c.col && !s.hasShot c.row c.col)
  shuffle ρ neighbors

/-- Stable insertion step: `x` goes in front of the first element it strictly
precedes, hence after every earlier equal-keyed element. -/
def stableInsertBy {α : Type} (lt : α → α → Bool) (x : α) : List α → List α
  | [] => [x]
  | y :: ys => if lt x y then x :: y :: ys else y :: stableInsertBy lt x ys

/-- Stable sort modelling `Array.prototype.sort` with a comparator
(`lt a b` iff the comparator orders `a` strictly before `b`). -/
def stableSortBy {α : Type} (lt : α → α → Bool) (l : List α) : List α :=
  l.foldl (fun acc x => stableInsertBy lt x acc) []

/-- Comparator `(a, b) => a - b` on integer keys. -/
def ltInt (a b : Int) : Bool := a < b

/-- Comparator `(a, b) => b.score - a.score` on scored coordinates. -/
def ltScoreDesc (a b : Coord × Nat) : Bool := b.2 < a.2

/-- `findContinuousHits` inner walk: keep consuming while each next hit
continues the run by exactly one column (resp. row). -/
def fchGo (horizontal : Bool) (prev : Coord) : List Coord → List Coord
  | [] => []
  | curr :: rest =>
    if horizontal then
      if curr.col == prev.col + 1 then curr :: fchGo horizontal curr rest else []
    else
      if curr.row == prev.row + 1 then curr :: fchGo horizontal curr rest else []

/-- `findContinuousHits(sortedHits, direction)`: the maximal consecutive run
starting at the first element. -/
def findContinuousHits (sortedHits : List Coord) (horizontal : Bool) : List Coord :=
  match sortedHits with
  | [] => []
  | h :: t => h :: fchGo horizontal h t

/-- `isHitExtendingLine(hit, line)`. -/
def isHitExtendingLine (hit : Coord) (line : List Coord) : Bool :=
  if line.length < 2 then true
  else
    match line with
    | [] => true
    | l0 :: _ =>
      let isHorizontal := line.all (fun h => h.row == l0.row)
      if isHorizontal then
        if hit.row != l0.row then false
        else
          let cols := stableSortBy ltInt (line.map (fun h => h.col))
          hit.col == cols.headD 0 - 1 || hit.col == cols.getLastD 0 + 1
      else
        if hit.col != l0.col then false
        else
          let rows := stableSortBy ltInt (line.map (fun h => h.row))
          hit.row == rows.headD 0 - 1 || hit.row == rows.getLastD 0 + 1

/-- `wouldExtendLine(target, line)`. -/
def wouldExtendLine (target : Coord) (line : List Coord) : Bool :=
  if line.length < 1 then false
  else if line.length == 1 then
    match line with
    | [] => false
    | hit :: _ =>
      (target.row == hit.row && (target.col - hit.col).natAbs == 1) ||
      (target.col == hit.col && (target.row - hit.row).natAbs == 1)
  else isHitExtendingLine target line

/-- `findSunkShipHits(lastHit)`: guess the sunk segment as the longer
continuous line through the last hit among `hits ++ [lastHit]`. -/
def findSunkShipHits (s : AIState) (lastHit : Coord) : List Coord :=
  let allHitsIncludingLast := s.hits ++ [lastHit]
  let horizontalHits :=
    stableSortBy (fun a b => ltInt a.col b.col)
      (allHitsIncludingLast.filter (fun h => h.row == lastHit.row))
  let verticalHits :=
    stableSortBy (fun a b => ltInt a.row b.row)
      (allHitsIncludingLast.filter (fun h => h.col == lastHit.col))
  let horizontalLine := findContinuousHits horizontalHits true
  let verticalLine := findContinuousHits verticalHits false
  let horizontalContainsLast :=
    horizontalLine.any (fun h => h.row == lastHit.row && h.col == lastHit.col)
  let verticalContainsLast :=
    verticalLine.any (fun h => h.row == lastHit.row && h.col == lastHit.col)
  if horizontalContainsLast && verticalContainsLast then
    if horizontalLine.length > verticalLine.length then horizontalLine else verticalLine
  else if horizontalContainsLast then horizontalLine
  else if verticalContainsLast then verticalLine
  else [lastHit]

/-- `canPlaceShipAt(startRow, startCol, size, horizontal)`: every covered cell
is in bounds and is not a recorded non-hit shot. -/
def AIState.canPlaceShipAt (s : AIState) (startRow startCol : Int) (size : Nat)
    (horizontal : Bool) : Bool :=
  (List.range size).all (fun i =>
    let r := if horizontal then startRow else startRow + i
    let c := if horizontal then startCol + i else startCol
    isValid r c && (!s.hasShot r c || s.isHitAt r c))

/-- Displace `(hitRow, hitCol)` by `i` steps in a direction. -/
def moveBy (hitRow hitCol : Int) (d : Dir) (i : Nat) : Int × Int :=
  match d with
  | Dir.up => (hitRow - i, hitCol)
  | Dir.down => (hitRow + i, hitCol)
  | Dir.left => (hitRow, hitCol - i)
  | Dir.right => (hitRow, hitCol + i)

/-- `scoreDirectionFromHit(hitRow, hitCol, direction)`: sum, over remaining
ship sizes, of the size when the ship could extend from the hit that way
(cells `1 .. size-1` all in bounds and not non-hit shots). -/
def scoreDirectionFromHit (s : AIState) (hitRow hitCol : Int) (d : Dir) : Nat :=
  s.remainingShipSizes.foldl
    (fun score shipSize =>
      let canFit := ((List.range (shipSize - 1)).map (fun i => i + 1)).all (fun i =>
        let rc := moveBy hitRow hitCol d i
        isValid rc.1 rc.2 && (!s.hasShot rc.1 rc.2 || s.isHitAt rc.1 rc.2))
      if canFit then score + shipSize else score)
    0

/-- The inclusive integer interval `[lo, hi]` as a list (empty when `hi < lo`). -/
def intRangeIcc (lo hi : Int) : List Int :=
  if hi < lo then []
  else (List.range ((hi - lo).toNat + 1)).map (fun k => lo + k)

/-- `calculateCellScore(row, col)`: the number of in-bounds placements of the
remaining ship sizes that cover the cell while avoiding known non-hit shots. -/
def calculateCellScore (s : AIState) (row col : Int) : Nat :=
  s.remainingShipSizes.foldl
    (fun score (shipSize : Nat) =>
      let sz : Int := shipSize
      let horiz := (intRangeIcc (max 0 (col - sz + 1)) (min (10 - sz) col)).countP
        (fun startCol => s.canPlaceShipAt row startCol shipSize true)
      let vert := (intRangeIcc (max 0 (row - sz + 1)) (min (10 - sz) row)).countP
        (fun startRow => s.canPlaceShipAt startRow col shipSize false)
      score + horiz + vert)
    0

/-- The row-major 10 x 10 coordinate grid scanned by the hunt loops. -/
def coordGrid : List Coord :=
  (List.range 10).flatMap (fun r => (List.range 10).map (fun c => ⟨(r : Int), (c : Int)⟩))

/-- The checkerboard hunt pass: unfired cells of even parity with a positive
score, in scan order, paired with their scores. -/
def parityCandidates (s : AIState) : List (Coord × Nat) :=
  coordGrid.filterMap (fun p =>
    if (p.row + p.col) % 2 == 0 && !s.hasShot p.row p.col then
      let score := calculateCellScore s p.row p.col
      if score > 0 then some (p, score) else none
    else none)

/-- The full-board hunt pass (no parity restriction). -/
def allCandidates (s : AIState) : List (Coord × Nat) :=
  coordGrid.filterMap (fun p =>
    if !s.hasShot p.row p.col then
      let score := calculateCellScore s p.row p.col
      if score > 0 then some (p, score) else none
    else none)

/-- The score-weighted draw: subtract scores until the running value drops to
`<= 0` and return that cell. -/
def weightedPick (r : Int) : List (Coord × Nat) → Option Coord
  | [] => none
  | (c, sc) :: rest => if r - sc ≤ 0 then some c else weightedPick (r - sc) rest

/-- `getSmartHuntShot()`: checkerboard scoring pass, full-board fallback,
then score-weighted random selection; with no scored cell, the first unfired
cell in scan order, and `(0,0)` when every cell has been fired. -/
def getSmartHuntShot (ρ : Rng) (s : AIState) : Coord :=
  let cellScores := parityCandidates s
  let cellScores := if cellScores.length == 0 then allCandidates s else cellScores
  if cellScores.length == 0 then
    match coordGrid.find? (fun p => !s.hasShot p.row p.col) with
    | some p => p
    | none => ⟨0, 0⟩
  else
    let totalScore := (cellScores.map (fun x => x.2)).sum
    let (d, ρ₁) := ρ.next
    let random : Int := (d % totalScore : Nat)
    match weightedPick random cellScores with
    | some c => c
    | none =>
      let d₂ := (ρ₁.next).1
      match cellScores.get? (d₂ % cellScores.length) with
      | some e => e.1
      | none => ⟨0, 0⟩

/-- The key sequence of a JS `Map` built by grouping: first-occurrence order,
without duplicates. -/
def groupKeys (key : Coord → Int) (hits : List Coord) : List Int :=
  hits.foldl (fun acc h => if key h ∈ acc then acc else acc ++ [key h]) []

/-- The bucket of one key, in hit order. -/
def groupOf (key : Coord → Int) (hits : List Coord) (k : Int) : List Coord :=
  hits.filter (fun h => key h == k)

/-- The grouped map as an association list in JS iteration order. -/
def groups (key : Coord → Int) (hits : List Coord) : List (Int × List Coord) :=
  (groupKeys key hits).map (fun k => (k, groupOf key hits k))

/-- One step of the longest-line scan of `rebuildTargetQueue`: a group of at
least two hits is sorted, its leading continuous run taken, and it becomes
the current best iff strictly longer. -/
def scanStep (horiz : Bool) (acc : Option (Bool × List Coord) × Nat)
    (g : Int × List Coord) : Option (Bool × List Coord) × Nat :=
  if g.2.length ≥ 2 then
    let sorted :=
      if horiz then stableSortBy (fun a b => ltInt a.col b.col) g.2
      else stableSortBy (fun a b => ltInt a.row b.row) g.2
    let continuous := findContinuousHits sorted horiz
    if continuous.length > acc.2 then (some (horiz, continuous), continuous.length) else acc
  else acc

/-- The longest continuous line among the tracked hits — horizontal groups
first, then vertical, strict improvement only (`rebuildTargetQueue`). -/
def scanLines (s : AIState) : Option (Bool × List Coord) :=
  let hGroups := groups (fun h => h.row) s.hits
  let vGroups := groups (fun h => h.col) s.hits
  (vGroups.foldl (scanStep false) (hGroups.foldl (scanStep true) (none, 0))).1

/-- Guarded queue push: in bounds and unfired. -/
def pushExt (s : AIState) (q : List Coord) (c : Coord) : List Coord :=
  if isValid c.row c.col && !s.hasShot c.row c.col then q ++ [c] else q

/-- The end-extensions of a line, far end first (`maxCol+1` / `maxRow+1`
pushed before `minCol-1` / `minRow-1`), each guarded. -/
def lineExtensions (s : AIState) (horiz : Bool) (line : List Coord) : List Coord :=
  match line with
  | [] => []
  | h :: _ =>
    if horiz then
      let cols := stableSortBy ltInt (line.map (fun x => x.col))
      pushExt s (pushExt s [] ⟨h.row, cols.getLastD 0 + 1⟩) ⟨h.row, cols.headD 0 - 1⟩
    else
      let rows := stableSortBy ltInt (line.map (fun x => x.row))
      pushExt s (pushExt s [] ⟨rows.getLastD 0 + 1, h.col⟩) ⟨rows.headD 0 - 1, h.col⟩

/-- Membership test used by the dedup guards (`some(t => t.row === c.row && ...)`). -/
def inQueue (q : List Coord) (c : Coord) : Bool :=
  q.any (fun t => t.row == c.row && t.col == c.col)

/-- The scored perpendicular candidates of a blocked line: for each hit, its
two cross-axis neighbours, guarded, scored by `scoreDirectionFromHit`. -/
def perpTargets (s : AIState) (horiz : Bool) (line : List Coord) : List (Coord × Nat) :=
  line.flatMap (fun hit =>
    if horiz then
      (let c : Coord := ⟨hit.row - 1, hit.col⟩
       if isValid c.row c.col && !s.hasShot c.row c.col then
         [(c, scoreDirectionFromHit s hit.row hit.col Dir.up)] else []) ++
      (let c : Coord := ⟨hit.row + 1, hit.col⟩
       if isValid c.row c.col && !s.hasShot c.row c.col then
         [(c, scoreDirectionFromHit s hit.row hit.col Dir.down)] else [])
    else
      (let c : Coord := ⟨hit.row, hit.col - 1⟩
       if isValid c.row c.col && !s.hasShot c.row c.col then
         [(c, scoreDirectionFromHit s hit.row hit.col Dir.left)] else []) ++
      (let c : Coord := ⟨hit.row, hit.col + 1⟩
       if isValid c.row c.col && !s.hasShot c.row c.col then
         [(c, scoreDirectionFromHit s hit.row hit.col Dir.right)] else []))

/-- The four direction-tagged neighbours of a hit, in source order. -/
def dirNeighbors (hit : Coord) : List (Coord × Dir) :=
  [(⟨hit.row - 1, hit.col⟩, Dir.up), (⟨hit.row + 1, hit.col⟩, Dir.down),
   (⟨hit.row, hit.col - 1⟩, Dir.left), (⟨hit.row, hit.col + 1⟩, Dir.right)]

/-- The deduplicated scored neighbours of all hits (final fallback of
`rebuildTargetQueue`). -/
def allNeighborTargets (s : AIState) : List (Coord × Nat) :=
  s.hits.foldl
    (fun acc hit =>
      (dirNeighbors hit).foldl
        (fun acc d =>
          if isValid d.1.row d.1.col && !s.hasShot d.1.row d.1.col &&
              !(acc.any (fun n => n.1.row == d.1.row && n.1.col == d.1.col)) then
            acc ++ [(d.1, scoreDirectionFromHit s hit.row hit.col d.2)]
          else acc)
        acc)
    []

/-- `rebuildTargetQueue()`: extend the longest line at its ends; if both ends
are blocked, enqueue scored perpendicular candidates; with no line at all,
enqueue the scored deduplicated neighbours of every hit. -/
def rebuildTargetQueue (s : AIState) : AIState :=
  let s₁ :=
    match scanLines s with
    | some (horiz, line) =>
      let s₂ := { s with targetQueue := s.targetQueue ++ lineExtensions s horiz line }
      if s₂.targetQueue.length == 0 then
        { s₂ with targetQueue := s₂.targetQueue ++
            (stableSortBy ltScoreDesc (perpTargets s₂ horiz line)).map (fun t => t.1) }
      else s₂
    | none => s
  if s₁.targetQueue.length == 0 then
    { s₁ with targetQueue := s₁.targetQueue ++
        (stableSortBy ltScoreDesc (allNeighborTargets s₁)).map (fun t => t.1) }
  else s₁

/-- `findAllLines()`: every horizontal then vertical continuous run of length
at least two among the tracked hits, in JS `Map` iteration order. -/
def findAllLines (s : AIState) : List (List Coord) :=
  (groups (fun h => h.row) s.hits).filterMap (fun g =>
    if g.2.length ≥ 2 then
      let continuous := findContinuousHits (stableSortBy (fun a b => ltInt a.col b.col) g.2) true
      if continuous.length ≥ 2 then some continuous else none
    else none)
  ++
  (groups (fun h => h.col) s.hits).filterMap (fun g =>
    if g.2.length ≥ 2 then
      let continuous := findContinuousHits (stableSortBy (fun a b => ltInt a.row b.row) g.2) false
      if continuous.length ≥ 2 then some continuous else none
    else none)

/-- `lines.reduce((longest, current) => current.length > longest.length ? current : longest)`
— `none` models the `TypeError` JS throws on an empty array. -/
def reduceLongest : List (List Coord) → Option (List Coord)
  | [] => none
  | l :: ls => some (ls.foldl (fun best cur => if cur.length > best.length then cur else best) l)

/-- First-hit queue build: the four neighbours, guarded, scored by
`scoreDirectionFromHit`, stably sorted by descending score. -/
def firstHitQueue (s : AIState) (coord : Coord) : List Coord :=
  let scoredNeighbors :=
    ((dirNeighbors coord).filter
        (fun d => isValid d.1.row d.1.col && !s.hasShot d.1.row d.1.col)).map
      (fun d => (d.1, scoreDirectionFromHit s coord.row coord.col d.2))
  (stableSortBy ltScoreDesc scoredNeighbors).map (fun n => n.1)

/-- Second-hit update: when the new hit is colinear with the first, reset the
queue to the two guarded end-extensions of the pair (far end first); a
non-colinear second hit leaves the queue untouched. -/
def secondHitUpdate (s : AIState) (coord : Coord) : AIState :=
  match s.hits.headD coord with
  | firstHit =>
    if coord.row == firstHit.row then
      let cols := stableSortBy ltInt [firstHit.col, coord.col]
      let q := pushExt s (pushExt s [] ⟨firstHit.row, cols.getLastD 0 + 1⟩) ⟨firstHit.row, cols.headD 0 - 1⟩
      { s with targetQueue := q }
    else if coord.col == firstHit.col then
      let rows := stableSortBy ltInt [firstHit.row, coord.row]
      let q := pushExt s (pushExt s [] ⟨rows.getLastD 0 + 1, firstHit.col⟩) ⟨rows.headD 0 - 1, firstHit.col⟩
      { s with targetQueue := q }
    else s

/-- Guarded `unshift` used when splicing line extensions to the queue front:
in bounds, unfired and not already queued. -/
def unshiftExt (s : AIState) (q : List Coord) (c : Coord) : List Coord :=
  if isValid c.row c.col && !s.hasShot c.row c.col && !inQueue q c then c :: q else q

/-- Splice the two end-extensions of one line to the queue front (right/down
extension first, then left/up, each guarded; the later unshift lands first). -/
def unshiftLineExtensions (s : AIState) (q : List Coord) (line : List Coord) : List Coord :=
  match line with
  | [] => q
  | h :: _ =>
    let isHorizontal := line.all (fun x => x.row == h.row)
    if isHorizontal then
      let cols := stableSortBy ltInt (line.map (fun x => x.col))
      unshiftExt s (unshiftExt s q ⟨h.row, cols.getLastD 0 + 1⟩) ⟨h.row, cols.headD 0 - 1⟩
    else
      let rows := stableSortBy ltInt (line.map (fun x => x.row))
      unshiftExt s (unshiftExt s q ⟨rows.getLastD 0 + 1, h.col⟩) ⟨rows.headD 0 - 1, h.col⟩

/-- Reset the queue to the guarded end-extensions of a best line (third-hit
branch when the new hit extends the longest line). -/
def refocusOnLine (s : AIState) (line : List Coord) : AIState :=
  match line with
  | [] => { s with targetQueue := [] }
  | h :: _ =>
    let isHorizontal := line.all (fun x => x.row == h.row)
    { s with targetQueue := lineExtensions s isHorizontal line }

/-- Third-and-later-hit update (`reportResult`, hit branch, `else` arm).
`none` models the `TypeError` of `lines.reduce(...)` on an empty array. -/
def thirdPlusHitUpdate (s : AIState) (coord : Coord) : Option AIState :=
  match reduceLongest (findAllLines s) with
  | none => none
  | some bestLine =>
    let isPartOfBestLine := bestLine.any (fun h => h.row == coord.row && h.col == coord.col)
    let isExtendingBestLine := isPartOfBestLine && isHitExtendingLine coord bestLine
    if isExtendingBestLine && bestLine.length ≥ 2 then
      some (refocusOnLine s bestLine)
    else
      let newLines := (findAllLines s).filter
        (fun line => line.any (fun h => h.row == coord.row && h.col == coord.col))
      let prioritized := s.targetQueue.filter
        (fun t => newLines.any (fun line => wouldExtendLine t line))
      let others := s.targetQueue.filter
        (fun t => !(newLines.any (fun line => wouldExtendLine t line)))
      let s₁ := { s with targetQueue := prioritized ++ others }
      if prioritized.length == 0 && newLines.length > 0 then
        some { s₁ with targetQueue :=
          newLines.foldl (fun q line => unshiftLineExtensions s₁ q line) s₁.targetQueue }
      else some s₁

/-- The hit branch of `reportResult` after the shot has been recorded and the
hit appended: branch on how many hits are now tracked. -/
def reportHit (s : AIState) (coord : Coord) : Option AIState :=
  if s.hits.length == 1 then
    some { s with targetQueue := firstHitQueue s coord }
  else if s.hits.length == 2 then
    some (secondHitUpdate s coord)
  else
    thirdPlusHitUpdate s coord

/-- The miss branch of `reportResult`: record the miss; when hits and queue
are both non-empty and no queued target still extends a known line, clear and
rebuild the queue. -/
def reportMiss (s : AIState) (coord : Coord) : AIState :=
  let s := { s with misses := addShot s.misses coord }
  if s.hits.length > 0 && s.targetQueue.length > 0 then
    let lines := findAllLines s
    if lines.length > 0 then
      if !(s.targetQueue.any (fun target => lines.any (fun line => wouldExtendLine target line))) then
        rebuildTargetQueue { s with targetQueue := [] }
      else s
    else s
  else s

/-- `Math.max(...)` over a list, with a stand-in for the `-Infinity` of an
empty spread (any value this far below zero behaves identically in the
comparisons and `slice` clamp the source performs). -/
def jsMaxNatList (l : List Nat) : Int :=
  l.foldl (fun a b => max a (b : Int)) (-(2 ^ 60))

/-- `arr.slice(0, n)` for a possibly negative JS `n` (a negative end counts
from the end of the array, clamped at zero). -/
def jsSlice0 {α : Type} (n : Int) (l : List α) : List α :=
  if n < 0 then l.take ((l.length : Int) + n).toNat else l.take n.toNat

/-- The sunk branch of `reportResult`: with authoritative sunk coordinates,
drop exactly the matching tracked hits; otherwise guess the segment through
the final shot, capped at the largest remaining ship size.  The length of the
*removed-hit list* is then deleted from `remainingShipSizes`, the matching
hits are removed, and the queue is rebuilt (hits remain) or all transient
state cleared (none remain). -/
def reportSunk (s : AIState) (coord : Coord) (sunkCoords : List Coord) : AIState :=
  let hitsToRemove :=
    if sunkCoords.length > 0 then
      s.hits.filter (fun hit =>
        sunkCoords.any (fun sc => sc.row == hit.row && sc.col == hit.col))
    else
      let sunkShipHits := findSunkShipHits s coord
      let maxRemainingShip := jsMaxNatList s.remainingShipSizes
      let size : Int :=
        if (sunkShipHits.length : Int) > maxRemainingShip then maxRemainingShip
        else (sunkShipHits.length : Int)
      jsSlice0 size sunkShipHits
  let sunkShipSize := hitsToRemove.length
  let idx := s.remainingShipSizes.indexOf sunkShipSize
  let remaining :=
    if idx < s.remainingShipSizes.length then s.remainingShipSizes.eraseIdx idx
    else s.remainingShipSizes
  let newHits := s.hits.filter (fun hit =>
    !(hitsToRemove.any (fun sunkHit => sunkHit.row == hit.row && sunkHit.col == hit.col)))
  let s₁ : AIState := { s with remainingShipSizes := remaining, hits := newHits }
  if s₁.hits.length > 0 then
    rebuildTargetQueue { s₁ with mode := Mode.target, targetQueue := [] }
  else
    { s₁ with
        mode := Mode.hunt
        targetQueue := []
        lastHit := none
        firstHit := none
        lastProbeDirection := none }

/-- `reportResult(coord, result, sunkCoords?)`.  The optional `sunkCoords`
is a list, with `[]` playing `undefined`.  `none` models the uncaught JS
exception of the third-hit branch. -/
def reportResult (s : AIState) (coord : Coord) (result : ShotResult)
    (sunkCoords : List Coord) : Option AIState :=
  let s := { s with shotsFired := addShot s.shotsFired coord }
  match result with
  | ShotResult.hit =>
    reportHit { s with mode := Mode.target, lastHit := some coord, hits := s.hits ++ [coord] } coord
  | ShotResult.miss => some (reportMiss s coord)
  | ShotResult.sunk => some (reportSunk s coord sunkCoords)

/-- `reset()`: every field back to its constructor value. -/
def AIState.reset (_ : AIState) : AIState :=
  { shotsFired := []
    mode := Mode.hunt
    targetQueue := []
    lastHit := none
    hits := []
    firstHit := none
    lastProbeDirection := none
    remainingShipSizes := [5, 4, 3, 3, 2]
    misses := [] }

/-- The stranded-hit filter of `getNextShot`: keep hits that still have an
unexplored orthogonal neighbour, threading the shuffle's random draws. -/
def filterValidHits (ρ : Rng) (s : AIState) : List Coord → List Coord × Rng
  | [] => ([], ρ)
  | h :: t =>
    let nρ := getOrthogonalNeighbors ρ s h.row h.col
    let rest := filterValidHits nρ.2 s t
    (if nρ.1.length > 0 then h :: rest.1 else rest.1, rest.2)

/-- The target-mode body of `getNextShot`, taking the state after the
conditional queue rebuild: pop the queue front if any; otherwise prune
stranded hits (those without unexplored orthogonal neighbours) and fall back
to a smart hunt shot, dropping to hunt mode only when no hit survives. -/
def getNextShotCore (ρ : Rng) (s₂ : AIState) : Coord × AIState :=
  match s₂.targetQueue with
  | shot :: rest => (shot, { s₂ with targetQueue := rest })
  | [] =>
    let vρ := filterValidHits ρ s₂ s₂.hits
    let s₃ := if vρ.1.length < s₂.hits.length then { s₂ with hits := vρ.1 } else s₂
    if s₃.hits.length == 0 then
      let s₄ := { s₃ with mode := Mode.hunt }
      (getSmartHuntShot vρ.2 s₄, s₄)
    else
      (getSmartHuntShot vρ.2 s₃, s₃)

/-- `getNextShot()`: with tracked hits, stay in target mode, rebuild the
queue when empty and run the target-mode body; with no tracked hits, hunt. -/
def getNextShot (ρ : Rng) (s : AIState) : Coord × AIState :=
  if s.hits.length > 0 then
    let s₁ := { s with mode := Mode.target }
    getNextShotCore ρ (if s₁.targetQueue.length == 0 then rebuildTargetQueue s₁ else s₁)
  else
    let s₁ := { s with mode := Mode.hunt }
    (getSmartHuntShot ρ s₁, s₁)

/-! ## Interaction semantics -/

/-- One strict game-loop round: the entropy for the shot choice, then the
outcome reported for exactly that shot. -/
structure RoundInput where
  ρ : Rng
  result : ShotResult
  sunkCoords : List Coord

/-- Run rounds in the strict discipline: every `getNextShot` is immediately
followed by a `reportResult` of the returned coordinate.  Outcomes are
arbitrary inputs.  Produces the final state and returned shots in order;
`none` when a report raises the modelled exception. -/
def runRounds (s : AIState) : List RoundInput → Option (AIState × List Coord)
  | [] => some (s, [])
  | inp :: rest =>
    let cs := getNextShot inp.ρ s
    match reportResult cs.2 cs.1 inp.result inp.sunkCoords with
    | none => none
    | some s₂ =>
      match runRounds s₂ rest with
      | none => none
      | some (sf, shots) => some (sf, cs.1 :: shots)

/-- A session interaction against a real board: ask the engine for a shot, or
report the board-truthful outcome of firing at a coordinate. -/
inductive Interaction where
  | ask (ρ : Rng)
  | report (c : Coord)

/-- A session: the hidden board and roster, the engine, and the coordinate
(if any) returned by the engine but not yet reported back. -/
structure SessionState where
  board : Board
  ships : List Ship
  engine : AIState
  pending : Option Coord

/-- The sunk-cell set the game loop computes after a shot (`App.tsx`): every
cell whose state reads `sunk`. -/
def sunkCellsOf (b : Board) : List Coord :=
  b.enum.flatMap (fun rp =>
    rp.2.enum.filterMap (fun cp =>
      if cp.2.state == CellState.sunk then some ⟨(rp.1 : Int), (cp.1 : Int)⟩ else none))

/-- One session step.  `ask` is legal only when the previously returned
coordinate has been reported (the discipline of the claim); `report`
resolves the shot on the board via `processShot` and feeds the *true*
outcome — with the authoritative sunk coordinates — to the engine. -/
def stepInteraction (st : SessionState) : Interaction → Option (SessionState × Option Coord)
  | Interaction.ask ρ =>
    match st.pending with
    | some _ => none
    | none =>
      let ce := getNextShot ρ st.engine
      some ({ st with engine := ce.2, pending := some ce.1 }, some ce.1)
  | Interaction.report c =>
    if c.row < 0 ∨ 10 ≤ c.row ∨ c.col < 0 ∨ 10 ≤ c.col then none
    else
      let r := processShot st.board st.ships c.row.toNat c.col.toNat
      let sunk := if r.2.2 == ShotResult.sunk then sunkCellsOf r.1 else []
      match reportResult st.engine c r.2.2 sunk with
      | none => none
      | some e =>
        some ({ board := r.1, ships := r.2.1, engine := e,
                pending := if st.pending == some c then none else st.pending }, none)

/-- Run a whole interaction sequence, collecting the coordinates returned by
`getNextShot` in order. -/
def runSession (st : SessionState) : List Interaction → Option (SessionState × List Coord)
  | [] => some (st, [])
  | i :: rest =>
    match stepInteraction st i with
    | none => none
    | some (st', out) =>
      match runSession st' rest with
      | none => none
      | some (sf, shots) =>
        some (sf, (match out with | some c => c :: shots | none => shots))

/-- The C2 scenario: two open hits, then an authoritative three-cell sunk
report. -/
def scen2 : Option AIState :=
  match reportResult initialState ⟨3, 3⟩ ShotResult.hit [] with
  | none => none
  | some s₁ =>
    match reportResult s₁ ⟨3, 4⟩ ShotResult.hit [] with
    | none => none
    | some s₂ => reportResult s₂ ⟨3, 5⟩ ShotResult.sunk [⟨3, 3⟩, ⟨3, 4⟩, ⟨3, 5⟩]

def scen7 : Option AIState :=
  match reportResult initialState ⟨3, 3⟩ ShotResult.hit [] with
  | none => none
  | some s₁ => reportResult s₁ ⟨3, 4⟩ ShotResult.hit []

-- C1 counterexample scaffolding (board with the full fleet placed).
def ceBoard : Board :=
  placeShip (placeShip (placeShip (placeShip (placeShip createEmptyBoard
    0 0 5 true 0) 2 0 4 true 1) 4 0 3 true 2) 6 0 3 true 3) 8 0 2 true 4

def ceShipCells : List Coord :=
  [⟨0,0⟩, ⟨0,1⟩, ⟨0,2⟩, ⟨0,3⟩, ⟨0,4⟩,
   ⟨2,0⟩, ⟨2,1⟩, ⟨2,2⟩, ⟨2,3⟩,
   ⟨4,0⟩, ⟨4,1⟩, ⟨4,2⟩,
   ⟨6,0⟩, ⟨6,1⟩, ⟨6,2⟩,
   ⟨8,0⟩, ⟨8,1⟩]

def ceMissCells : List Coord :=
  coordGrid.filter (fun c => c ∉ ceShipCells)

def ceTrace : List Interaction :=
  (ceShipCells ++ ceMissCells).map Interaction.report
  ++ [Interaction.ask rng0, Interaction.report ⟨0, 0⟩, Interaction.ask rng0]

/-! ## Concrete states and claim statements -/

/-- The no-repeat claim over arbitrary discipline-respecting sessions: in any
interaction sequence against any board in which each coordinate returned by
`getNextShot` is reported (with the board-truthful outcome) before the next
`getNextShot`, the returned coordinates are pairwise distinct. -/
def C1Claim : Prop :=
  ∀ (b : Board) (ships : List Ship) (trace : List Interaction) (out : SessionState × List Coord),
    runSession ⟨b, ships, initialState, none⟩ trace = some out → out.2.Nodup

/-- The claimed retry bound of `placeShipsRandomly`: a ship is given up
unplaced only after at least 1000 random draws. -/
def C3Claim : Prop :=
  ∀ (b : Board) (ship : Ship) (ρ : Rng),
    (tryPlaceShip b ship ρ 100).2.2.1 = false → 1000 ≤ (tryPlaceShip b ship ρ 100).2.2.2

/-- The engine invariant carried through a strict session: queued targets are
unfired and duplicate-free, and the queue is empty whenever no hit is
tracked. -/
def EngineInv (s : AIState) : Prop :=
  (∀ c ∈ s.targetQueue, c ∉ s.shotsFired) ∧ s.targetQueue.Nodup ∧
    (s.hits = [] → s.targetQueue = [])

/-- A well-formed 10 x 10 board. -/
def WFBoard (b : Board) : Prop :=
  b.length = 10 ∧ ∀ r ∈ b, r.length = 10

/-- Fire a sequence of board coordinates with `processShot`, collecting the
results. -/
def fireAll (b : Board) (ships : List Ship) : List (Nat × Nat) → List ShotResult × Board × List Ship
  | [] => ([], b, ships)
  | rc :: rest =>
    let out := processShot b ships rc.1 rc.2
    let next := fireAll out.1 out.2.1 rest
    (out.2.2 :: next.1, next.2)

/-- Engine state after the single strict round used as the C1 witness. -/
def w1state : AIState :=
  { initialState with shotsFired := [⟨0, 0⟩], misses := [⟨0, 0⟩] }

/-- A board with every cell occupied — no placement is valid anywhere. -/
def fullBoard : Board :=
  List.replicate 10 (List.replicate 10 ⟨CellState.ship, some 9⟩)

/-- A destroyer-shaped ship used in concrete placement checks. -/
def dShip : Ship := ⟨4, 2, 0, false, false⟩

/-- Scenario-A board: a length-3 ship placed horizontally at row 4, cols 2-4. -/
def c8Board : Board := placeShip createEmptyBoard 4 2 3 true 2

/-- Board for the round-trip witness: a length-2 ship at row 0, cols 0-1. -/
def c5Board : Board := placeShip createEmptyBoard 0 0 2 true 4

/-- The even-parity half of the grid. -/
def parityCoords : List Coord :=
  coordGrid.filter (fun c => (c.row + c.col) % 2 == 0)

/-- A state whose parity cells are all fired but where the hit at the corner
keeps full-board scoring alive: the parity pass is empty, the full pass is
not. -/
def c6stateC : AIState :=
  { initialState with shotsFired := parityCoords, hits := [⟨0, 0⟩], remainingShipSizes := [2] }

/-- A state whose parity cells are all fired as plain misses: every placement
is blocked, both scoring passes are empty, yet unfired cells remain. -/
def c6stateD : AIState :=
  { initialState with shotsFired := parityCoords, remainingShipSizes := [2] }

/-! ## Basic properties of the modelled JS primitives -/

theorem stableInsertBy_perm {α : Type} (lt : α → α → Bool) (x : α) (l : List α) :
    (stableInsertBy lt x l).Perm (x :: l) := by
  induction l with
  | nil => simp [stableInsertBy]
  | cons y ys ih =>
    by_cases h : lt x y
    · simp [stableInsertBy, h]
    · simp only [stableInsertBy, h, if_false, Bool.false_eq_true]
      exact (List.Perm.cons y ih).trans (List.Perm.swap x y ys)

theorem stableSortBy_aux_perm {α : Type} (lt : α → α → Bool) (l acc : List α) :
    (l.foldl (fun a x => stableInsertBy lt x a) acc).Perm (acc ++ l) := by
  induction l generalizing acc with
  | nil => simp
  | cons x xs ih =>
    simp only [List.foldl_cons]
    refine (ih (stableInsertBy lt x acc)).trans ?_
    have h1 : (stableInsertBy lt x acc ++ xs).Perm ((x :: acc) ++ xs) :=
      (stableInsertBy_perm lt x acc).append_right xs
    refine h1.trans ?_
    simp only [List.cons_append]
    exact List.perm_middle.symm

theorem stableSortBy_perm {α : Type} (lt : α → α → Bool) (l : List α) :
    (stableSortBy lt l).Perm l := by
  simpa [stableSortBy] using stableSortBy_aux_perm lt l []

theorem mem_stableSortBy {α : Type} {lt : α → α → Bool} {l : List α} {x : α} :
    x ∈ stableSortBy lt l ↔ x ∈ l :=
  (stableSortBy_perm lt l).mem_iff

theorem nodup_stableSortBy {α : Type} {lt : α → α → Bool} {l : List α} (h : l.Nodup) :
    (stableSortBy lt l).Nodup :=
  ((stableSortBy_perm lt l).nodup_iff).mpr h

theorem mem_addShot {l : List Coord} {c x : Coord} :
    x ∈ addShot l c ↔ x ∈ l ∨ x = c := by
  by_cases h : c ∈ l
  · simp only [addShot, if_pos h]
    constructor
    · exact Or.inl
    · rintro (hx | rfl)
      · exact hx
      · exact h
  · simp [addShot, if_neg h]

theorem self_mem_addShot (l : List Coord) (c : Coord) : c ∈ addShot l c :=
  mem_addShot.mpr (Or.inr rfl)

theorem subset_addShot (l : List Coord) (c : Coord) : l ⊆ addShot l c :=
  fun _ hx => mem_addShot.mpr (Or.inl hx)

theorem length_addShot (l : List Coord) (c : Coord) :
    (addShot l c).length ≤ l.length + 1 := by
  by_cases h : c ∈ l <;> simp [addShot, h]

theorem stableInsertBy_int_sorted (x : Int) (l : List Int)
    (h : l.Sorted (fun a b => a ≤ b)) :
    (stableInsertBy ltInt x l).Sorted (fun a b => a ≤ b) := by
  induction l with
  | nil => simp [stableInsertBy]
  | cons y ys ih =>
    by_cases hxy : ltInt x y
    · simp only [stableInsertBy, hxy, if_true]
      refine List.sorted_cons.mpr ⟨?_, h⟩
      intro b hb
      have hx : x ≤ y := le_of_lt (by simpa [ltInt] using hxy)
      rcases List.mem_cons.mp hb with rfl | hb'
      · exact hx
      · exact hx.trans (List.rel_of_sorted_cons h _ hb')
    · simp only [stableInsertBy, hxy, if_false, Bool.false_eq_true]
      have hys := ih (List.sorted_cons.mp h).2
      refine List.sorted_cons.mpr ⟨?_, hys⟩
      intro b hb
      have hyx : y ≤ x := le_of_not_lt (by simpa [ltInt] using hxy)
      have hmem := (stableInsertBy_perm ltInt x ys).mem_iff.mp hb
      rcases List.mem_cons.mp hmem with rfl | hb'
      · exact hyx
      · exact List.rel_of_sorted_cons h _ hb'

theorem stableSortBy_int_sorted (l : List Int) :
    (stableSortBy ltInt l).Sorted (fun a b => a ≤ b) := by
  suffices h : ∀ acc, acc.Sorted (fun a b : Int => a ≤ b) →
      (l.foldl (fun a x => stableInsertBy ltInt x a) acc).Sorted (fun a b => a ≤ b) by
    exact h [] (by simp)
  induction l with
  | nil => intro acc hacc; simpa using hacc
  | cons x xs ih =>
    intro acc hacc
    exact ih (stableInsertBy ltInt x acc) (stableInsertBy_int_sorted x acc hacc)

theorem sorted_headD_le_getLastD {l : List Int} (hne : l ≠ [])
    (h : l.Sorted (fun a b => a ≤ b)) : l.headD 0 ≤ l.getLastD 0 := by
  cases l with
  | nil => exact absurd rfl hne
  | cons x xs =>
    have hmem : (x :: xs).getLastD 0 ∈ x :: xs := by
      rw [List.getLastD_eq_getLast?, List.getLast?_eq_getLast _ (by simp)]
      exact List.getLast_mem _
    rcases List.mem_cons.mp hmem with heq | hmem'
    · simp only [List.headD_cons, heq]
      exact le_refl x
    · exact List.rel_of_sorted_cons h _ hmem'

theorem fchGo_mem (horiz : Bool) (prev : Coord) (t : List Coord) :
    ∀ x ∈ fchGo horiz prev t, x ∈ t := by
  induction t generalizing prev with
  | nil => simp [fchGo]
  | cons c rest ih =>
    intro x hx
    by_cases hh : horiz = true
    · subst hh
      by_cases hc : c.col == prev.col + 1
      · simp only [fchGo, hc, if_true] at hx
        rcases hx with _ | hx
        · exact List.mem_cons_self _ _
        · exact List.mem_cons_of_mem _ (ih c x (by assumption))
      · simp [fchGo, hc] at hx
    · have hh' : horiz = false := by
        cases horiz
        · rfl
        · exact absurd rfl hh
      subst hh'
      by_cases hc : c.row == prev.row + 1
      · simp only [fchGo, hc, if_true, Bool.false_eq_true, if_false] at hx
        rcases hx with _ | hx
        · exact List.mem_cons_self _ _
        · exact List.mem_cons_of_mem _ (ih c x (by assumption))
      · simp [fchGo, hc] at hx

theorem findContinuousHits_subset (sorted : List Coord) (horiz : Bool) :
    ∀ x ∈ findContinuousHits sorted horiz, x ∈ sorted := by
  cases sorted with
  | nil => simp [findContinuousHits]
  | cons h t =>
    intro x hx
    rcases hx with _ | hx
    · exact List.mem_cons_self _ _
    · exact List.mem_cons_of_mem _ (fchGo_mem horiz h t x (by assumption))

/-! ## Board read/write lemmas -/

theorem getD_set_self {α : Type} (l : List α) (i : Nat) (x d : α) (h : i < l.length) :
    (l.set i x).getD i d = x := by
  rw [List.getD_eq_getElem?_getD, List.getElem?_set_self h]
  rfl

theorem getD_set_ne {α : Type} (l : List α) (i j : Nat) (x d : α) (h : i ≠ j) :
    (l.set i x).getD j d = l.getD j d := by
  rw [List.getD_eq_getElem?_getD, List.getElem?_set_ne h, ← List.getD_eq_getElem?_getD]

theorem cellAt_setCell_self (b : Board) (r c : Nat) (cell : Cell)
    (hr : r < b.length) (hc : c < (b.getD r []).length) :
    cellAt (setCell b r c cell) r c = cell := by
  unfold cellAt setCell
  rw [getD_set_self _ _ _ _ hr, getD_set_self _ _ _ _ hc]

theorem cellAt_setCell_ne (b : Board) (r c r' c' : Nat) (cell : Cell)
    (h : ¬(r = r' ∧ c = c')) :
    cellAt (setCell b r c cell) r' c' = cellAt b r' c' := by
  unfold cellAt setCell
  by_cases hr : r = r'
  · subst hr
    have hc : c ≠ c' := fun hcc => h ⟨rfl, hcc⟩
    by_cases hlen : r < b.length
    · rw [getD_set_self _ _ _ _ hlen, getD_set_ne _ _ _ _ _ hc]
    · rw [List.set_eq_of_length_le (le_of_not_lt hlen)]
  · rw [getD_set_ne _ _ _ _ _ hr]

theorem length_setCell (b : Board) (r c : Nat) (cell : Cell) :
    (setCell b r c cell).length = b.length := by
  simp [setCell]

theorem getD_setCell_length (b : Board) (r c r' : Nat) (cell : Cell) :
    ((setCell b r c cell).getD r' []).length = (b.getD r' []).length := by
  unfold setCell
  by_cases hr : r = r'
  · subst hr
    by_cases hlen : r < b.length
    · rw [getD_set_self _ _ _ _ hlen]
      simp
    · rw [List.set_eq_of_length_le (le_of_not_lt hlen)]
  · rw [getD_set_ne _ _ _ _ _ hr]

theorem wf_setCell {b : Board} (hwf : WFBoard b) (r c : Nat) (cell : Cell) :
    WFBoard (setCell b r c cell) := by
  obtain ⟨hlen, hrow⟩ := hwf
  by_cases hlt : r < b.length
  · constructor
    · simpa [setCell] using hlen
    · intro row hrowmem
      unfold setCell at hrowmem
      rcases List.mem_or_eq_of_mem_set hrowmem with hmem | rfl
      · exact hrow _ hmem
      · rw [List.length_set]
        refine hrow _ ?_
        rw [List.getD_eq_getElem?_getD]
        have hsome : b[r]? = some b[r] := List.getElem?_eq_getElem (by simpa using hlt)
        rw [hsome]
        exact List.getElem_mem _
  · unfold setCell
    rw [List.set_eq_of_length_le (le_of_not_lt hlt)]
    exact ⟨hlen, hrow⟩

theorem wf_rowlen {b : Board} (hwf : WFBoard b) (r : Nat) (hr : r < 10) :
    (b.getD r []).length = 10 := by
  obtain ⟨hlen, hrow⟩ := hwf
  rw [List.getD_eq_getElem?_getD]
  have hsome : b[r]? = some b[r] := List.getElem?_eq_getElem (by omega)
  rw [hsome]
  exact hrow _ (List.getElem_mem _)

/-! ## Claim C9 -/

/-- C9: `reset()` puts the engine in exactly the freshly constructed state —
empty fired set, empty miss set, empty open hits, empty queue, hunt mode,
full fleet lengths `[5,4,3,3,2]` — and is therefore idempotent: resetting
twice equals resetting once. -/
theorem C9_reset_is_fresh :
    (∀ s : AIState, s.reset = initialState) ∧
    (∀ s : AIState, s.reset.shotsFired = [] ∧ s.reset.misses = [] ∧ s.reset.hits = [] ∧
      s.reset.targetQueue = [] ∧ s.reset.mode = Mode.hunt ∧
      s.reset.remainingShipSizes = [5, 4, 3, 3, 2]) ∧
    (∀ s : AIState, s.reset.reset = s.reset) :=
  ⟨fun _ => rfl, fun _ => ⟨rfl, rfl, rfl, rfl, rfl, rfl⟩, fun _ => rfl⟩

/-! ## Claim C7 -/

/-- C7: from a fresh engine, after `reportResult((3,3),'hit')` then
`reportResult((3,4),'hit')`, the target queue is exactly the two horizontal
end-extensions `(3,5)` (pushed first) and `(3,2)` — in particular it has
exactly these two coordinates and no vertical candidate. -/
theorem C7_second_hit_queue :
    scen7.map (fun s => s.targetQueue) = some [⟨3, 5⟩, ⟨3, 2⟩] := by
  decide

/-! ## Claim C2 -/

/-- C2 (code evaluation at the failing input): from a fresh engine, after
hits at (3,3) and (3,4) and then `reportResult((3,5),'sunk')` with
authoritative sunk coordinates {(3,3),(3,4),(3,5)}, the open-hit set empties
and the mode becomes hunt as claimed, but the remaining fleet lengths become
`[5,4,3,3]`, not the claimed `[5,4,3,2]`: the code removes one instance of
`hitsToRemove.length = 2` — the cell reported as `'sunk'` never entered the
open-hit list — instead of the sunk ship's length 3. -/
theorem C2_sunk_scenario_eval :
    scen2.map (fun s => (s.remainingShipSizes, s.hits, s.mode)) =
      some ([5, 4, 3, 3], [], Mode.hunt) := by
  decide

/-! ## Claim C8 -/

/-- C8: for in-range origins and positive lengths, `canPlaceShip` returns
true iff every covered cell is inside the 10 x 10 grid and currently empty;
concretely, with a length-3 ship at row 4 cols 2-4, a horizontal length-3
placement at row 4 col 3 is rejected and one at row 5 col 2 accepted. -/
theorem C8_canPlaceShip :
    (∀ (b : Board) (row col len : Nat) (horiz : Bool), row < 10 → col < 10 → 1 ≤ len →
      (canPlaceShip b row col len horiz = true ↔
        ∀ i < len,
          (if horiz then row < 10 ∧ col + i < 10 ∧ (cellAt b row (col + i)).state = CellState.empty
           else row + i < 10 ∧ col < 10 ∧ (cellAt b (row + i) col).state = CellState.empty)))
    ∧ canPlaceShip c8Board 4 3 3 true = false
    ∧ canPlaceShip c8Board 5 2 3 true = true := by
  refine ⟨?_, by decide, by decide⟩
  intro b row col len horiz hrow hcol hlen
  cases horiz with
  | true =>
    simp only [canPlaceShip, if_true, BOARD_SIZE]
    by_cases hb : 10 < col + len
    · rw [if_pos hb]
      constructor
      · intro hfalse
        exact absurd hfalse (by simp)
      · intro hall
        have h1 := hall (len - 1) (by omega)
        simp only [if_true] at h1
        omega
    · rw [if_neg hb]
      rw [List.all_eq_true]
      constructor
      · intro hall i hi
        have := hall i (List.mem_range.mpr hi)
        simp only [beq_iff_eq] at this
        exact ⟨hrow, by omega, this⟩
      · intro hall i hi
        have := hall i (List.mem_range.mp hi)
        simp only [if_true] at this
        simp only [beq_iff_eq]
        exact this.2.2
  | false =>
    simp only [canPlaceShip, Bool.false_eq_true, if_false, BOARD_SIZE]
    by_cases hb : 10 < row + len
    · rw [if_pos hb]
      constructor
      · intro hfalse
        exact absurd hfalse (by simp)
      · intro hall
        have h1 := hall (len - 1) (by omega)
        simp only [Bool.false_eq_true, if_false] at h1
        omega
    · rw [if_neg hb]
      rw [List.all_eq_true]
      constructor
      · intro hall i hi
        have := hall i (List.mem_range.mpr hi)
        simp only [beq_iff_eq] at this
        exact ⟨by omega, hcol, this⟩
      · intro hall i hi
        have := hall i (List.mem_range.mp hi)
        simp only [Bool.false_eq_true, if_false] at this
        simp only [beq_iff_eq]
        exact this.2.2

/-- Witness for C8: the general equivalence applied on the empty board with a
length-5 horizontal placement at the origin. -/
theorem C8_canPlaceShip_witness :
    canPlaceShip createEmptyBoard 0 0 5 true = true :=
  (C8_canPlaceShip.1 createEmptyBoard 0 0 5 true (by decide) (by decide) (by decide)).mpr
    (by decide)

/-! ## Claim C4 -/

theorem getD_map_lt {α β : Type} (f : α → β) (l : List α) (i : Nat) (d : β) (d₀ : α)
    (h : i < l.length) :
    (l.map f).getD i d = f (l.getD i d₀) := by
  rw [List.getD_eq_getElem?_getD, List.getElem?_map, List.getElem?_eq_getElem h,
    List.getD_eq_getElem?_getD, List.getElem?_eq_getElem h]
  rfl

theorem cellAt_markShipAsSunk (b : Board) (sid : Nat) (r c : Nat)
    (hr : r < b.length) (hc : c < (b.getD r []).length) :
    cellAt (markShipAsSunk b sid) r c =
      (if (cellAt b r c).shipId == some sid then
        { cellAt b r c with state := CellState.sunk } else cellAt b r c) := by
  unfold cellAt markShipAsSunk
  rw [getD_map_lt _ _ _ _ [] hr, getD_map_lt _ _ _ _ ⟨CellState.empty, none⟩ hc]

theorem find?_updateFirstMatch (p : Ship → Bool) (f : Ship → Ship) (l : List Ship)
    (sh : Ship) (h : l.find? p = some sh) (hpf : p (f sh) = true) :
    (updateFirstMatch p f l).find? p = some (f sh) := by
  induction l with
  | nil => simp [List.find?] at h
  | cons s rest ih =>
    by_cases hp : p s
    · rw [List.find?_cons_of_pos _ hp] at h
      injection h with h
      subst h
      simp only [updateFirstMatch, if_pos hp]
      rw [List.find?_cons_of_pos _ hpf]
    · rw [List.find?_cons_of_neg _ hp] at h
      simp only [updateFirstMatch, if_neg hp]
      rw [List.find?_cons_of_neg _ hp]
      exact ih h

/-- C4: on a well-formed board with an in-range target whose cell is `ship`
or `empty`, `processShot` behaves per the spec: a `ship` cell becomes `hit`
and the owning ship's hit count increments; when the count reaches the ship's
length the ship is flagged sunk, every cell of that ship reads `sunk`, and
`'sunk'` is returned, otherwise `'hit'`; an `empty` cell becomes `miss` with
result `'miss'` and an untouched roster. -/
theorem C4_processShot (b : Board) (ships : List Ship) (r c : Nat)
    (hwf : WFBoard b) (hr : r < 10) (hc : c < 10) :
    ((cellAt b r c).state = CellState.empty →
      (processShot b ships r c).2.2 = ShotResult.miss ∧
      (cellAt (processShot b ships r c).1 r c).state = CellState.miss ∧
      (processShot b ships r c).2.1 = ships)
    ∧ (∀ sid sh, (cellAt b r c).state = CellState.ship → (cellAt b r c).shipId = some sid →
        ships.find? (fun s => s.id == sid) = some sh →
        ((sh.hits + 1 ≠ sh.length →
           (processShot b ships r c).2.2 = ShotResult.hit ∧
           (cellAt (processShot b ships r c).1 r c).state = CellState.hit ∧
           (processShot b ships r c).2.1.find? (fun s => s.id == sid) =
             some { sh with hits := sh.hits + 1 })
         ∧ (sh.hits + 1 = sh.length →
           (processShot b ships r c).2.2 = ShotResult.sunk ∧
           (processShot b ships r c).2.1.find? (fun s => s.id == sid) =
             some { sh with hits := sh.hits + 1, sunk := true } ∧
           ∀ r' c', r' < 10 → c' < 10 → (cellAt b r' c').shipId = some sid →
             (cellAt (processShot b ships r c).1 r' c').state = CellState.sunk))) := by
  have hrlen : r < b.length := by rw [hwf.1]; exact hr
  have hclen : c < (b.getD r []).length := by rw [wf_rowlen hwf r hr]; exact hc
  constructor
  · intro hempty
    have hne : ¬((cellAt b r c).state = CellState.ship) := by rw [hempty]; simp
    simp only [processShot, if_neg hne]
    refine ⟨trivial, ?_, trivial⟩
    rw [cellAt_setCell_self _ _ _ _ hrlen hclen]
  · intro sid sh hship hsid hfind
    simp only [processShot, if_pos hship, hsid, hfind]
    constructor
    · intro hne
      simp only [if_neg hne]
      refine ⟨trivial, ?_, ?_⟩
      · rw [cellAt_setCell_self _ _ _ _ hrlen hclen]
      · refine find?_updateFirstMatch _ _ _ _ hfind ?_
        have hps := List.find?_some hfind
        simpa using hps
    · intro heq
      simp only [if_pos heq]
      refine ⟨trivial, ?_, ?_⟩
      · refine find?_updateFirstMatch _ _ _ _ hfind ?_
        have hps := List.find?_some hfind
        simpa using hps
      · intro r' c' hr' hc' hsid'
        have hr'len : r' < (setCell b r c ⟨CellState.hit, some sid⟩).length := by
          rw [length_setCell, hwf.1]; exact hr'
        have hc'len : c' < ((setCell b r c ⟨CellState.hit, some sid⟩).getD r' []).length := by
          rw [getD_setCell_length, wf_rowlen hwf r' hr']; exact hc'
        rw [cellAt_markShipAsSunk _ _ _ _ hr'len hc'len]
        have hsb : (cellAt (setCell b r c ⟨CellState.hit, some sid⟩) r' c').shipId
            = some sid := by
          by_cases hsame : r = r' ∧ c = c'
          · obtain ⟨rfl, rfl⟩ := hsame
            rw [cellAt_setCell_self _ _ _ _ hrlen hclen]
          · rw [cellAt_setCell_ne _ _ _ _ _ _ hsame]
            exact hsid'
        rw [if_pos (by simp [hsb])]

/-- Witness for C4: firing at the empty cell (0,0) and the ship cell (4,2) of
the Scenario-A board with the standard roster. -/
theorem C4_processShot_witness :
    (processShot c8Board createShips 0 0).2.2 = ShotResult.miss ∧
    (processShot c8Board createShips 4 2).2.2 = ShotResult.hit := by
  have hwf : WFBoard c8Board := by
    unfold WFBoard
    exact ⟨by decide, by decide⟩
  constructor
  · exact ((C4_processShot c8Board createShips 0 0 hwf (by decide) (by decide)).1
      (by decide)).1
  · exact (((C4_processShot c8Board createShips 4 2 hwf (by decide) (by decide)).2
      2 ⟨2, 3, 0, false, false⟩ (by decide) (by decide) (by decide)).1 (by decide)).1

/-! ## Claim C5 -/

theorem processShot_ship_step (b : Board) (ships : List Ship) (r c : Nat) (sid : Nat) (sh : Ship)
    (hcell : cellAt b r c = ⟨CellState.ship, some sid⟩)
    (hfind : ships.find? (fun s => s.id == sid) = some sh) :
    processShot b ships r c =
      (if sh.hits + 1 = sh.length then
        (markShipAsSunk (setCell b r c ⟨CellState.hit, some sid⟩) sid,
         updateFirstMatch (fun s => s.id == sid)
           (fun s => { s with hits := s.hits + 1, sunk := true }) ships, ShotResult.sunk)
      else
        (setCell b r c ⟨CellState.hit, some sid⟩,
         updateFirstMatch (fun s => s.id == sid)
           (fun s => { s with hits := s.hits + 1 }) ships, ShotResult.hit)) := by
  simp only [processShot, hcell, hfind]
  rw [if_pos (by trivial)]

theorem C5_aux (sid : Nat) (cells₀ : List (Nat × Nat)) :
    ∀ (order : List (Nat × Nat)) (b : Board) (ships : List Ship) (sh : Ship),
      WFBoard b →
      ships.find? (fun s => s.id == sid) = some sh →
      sh.hits + order.length = sh.length →
      order ≠ [] →
      order.Nodup →
      (∀ rc ∈ order, rc.1 < 10 ∧ rc.2 < 10 ∧
        cellAt b rc.1 rc.2 = ⟨CellState.ship, some sid⟩) →
      (∀ rc ∈ cells₀, rc.1 < 10 ∧ rc.2 < 10 ∧ (cellAt b rc.1 rc.2).shipId = some sid) →
      (fireAll b ships order).1 =
        List.replicate (order.length - 1) ShotResult.hit ++ [ShotResult.sunk] ∧
      (∀ rc ∈ cells₀, (cellAt (fireAll b ships order).2.1 rc.1 rc.2).state = CellState.sunk) := by
  intro order
  induction order with
  | nil =>
    intro b ships sh _ _ _ hne _ _ _
    exact absurd rfl hne
  | cons rc rest ih =>
    intro b ships sh hwf hfind hcount hne hnodup horder hall
    obtain ⟨hr1, hc1, hcell⟩ := horder rc (List.mem_cons_self _ _)
    have hrlen : rc.1 < b.length := by rw [hwf.1]; exact hr1
    have hclen : rc.2 < (b.getD rc.1 []).length := by rw [wf_rowlen hwf _ hr1]; exact hc1
    have hstep := processShot_ship_step b ships rc.1 rc.2 sid sh hcell hfind
    have hfire : fireAll b ships (rc :: rest) =
        ((processShot b ships rc.1 rc.2).2.2 ::
          (fireAll (processShot b ships rc.1 rc.2).1
            (processShot b ships rc.1 rc.2).2.1 rest).1,
         (fireAll (processShot b ships rc.1 rc.2).1
            (processShot b ships rc.1 rc.2).2.1 rest).2) := rfl
    cases rest with
    | nil =>
      have hlast : sh.hits + 1 = sh.length := by simpa using hcount
      rw [hfire, hstep, if_pos hlast]
      refine ⟨rfl, ?_⟩
      intro rc' hrc'
      obtain ⟨hr1', hc1', hsid'⟩ := hall rc' hrc'
      show (cellAt (markShipAsSunk (setCell b rc.1 rc.2 ⟨CellState.hit, some sid⟩) sid)
        rc'.1 rc'.2).state = CellState.sunk
      have hr'len : rc'.1 < (setCell b rc.1 rc.2 ⟨CellState.hit, some sid⟩).length := by
        rw [length_setCell, hwf.1]; exact hr1'
      have hc'len : rc'.2 <
          ((setCell b rc.1 rc.2 ⟨CellState.hit, some sid⟩).getD rc'.1 []).length := by
        rw [getD_setCell_length, wf_rowlen hwf _ hr1']; exact hc1'
      rw [cellAt_markShipAsSunk _ _ _ _ hr'len hc'len]
      have hsb : (cellAt (setCell b rc.1 rc.2 ⟨CellState.hit, some sid⟩) rc'.1 rc'.2).shipId
          = some sid := by
        by_cases hsame : rc.1 = rc'.1 ∧ rc.2 = rc'.2
        · obtain ⟨h1, h2⟩ := hsame
          rw [← h1, ← h2, cellAt_setCell_self _ _ _ _ hrlen hclen]
        · rw [cellAt_setCell_ne _ _ _ _ _ _ hsame]
          exact hsid'
      rw [if_pos (by simp [hsb])]
    | cons rc2 rest2 =>
      have hnotlast : sh.hits + 1 ≠ sh.length := by
        simp only [List.length_cons] at hcount
        omega
      rw [hfire, hstep, if_neg hnotlast]
      set b₁ := setCell b rc.1 rc.2 ⟨CellState.hit, some sid⟩ with hb₁
      set ships₁ := updateFirstMatch (fun s => s.id == sid)
        (fun s => { s with hits := s.hits + 1 }) ships with hships₁
      have hwf₁ : WFBoard b₁ := wf_setCell hwf _ _ _
      have hfind₁ : ships₁.find? (fun s => s.id == sid) = some { sh with hits := sh.hits + 1 } := by
        refine find?_updateFirstMatch _ _ _ _ hfind ?_
        have hps := List.find?_some hfind
        simpa using hps
      have hcount₁ : ({ sh with hits := sh.hits + 1 } : Ship).hits + (rc2 :: rest2).length
          = ({ sh with hits := sh.hits + 1 } : Ship).length := by
        simp only [List.length_cons] at hcount ⊢
        omega
      have hne₁ : (rc2 :: rest2) ≠ [] := by simp
      have hnodup₁ : (rc2 :: rest2).Nodup := (List.nodup_cons.mp hnodup).2
      have hnotmem : rc ∉ (rc2 :: rest2) := (List.nodup_cons.mp hnodup).1
      have horder₁ : ∀ rc' ∈ (rc2 :: rest2), rc'.1 < 10 ∧ rc'.2 < 10 ∧
          cellAt b₁ rc'.1 rc'.2 = ⟨CellState.ship, some sid⟩ := by
        intro rc' hrc'
        obtain ⟨h1', h2', h3'⟩ := horder rc' (List.mem_cons_of_mem _ hrc')
        refine ⟨h1', h2', ?_⟩
        have hneq : ¬(rc.1 = rc'.1 ∧ rc.2 = rc'.2) := by
          intro hsame
          exact hnotmem (by
            have : rc = rc' := Prod.ext hsame.1 hsame.2
            rw [this]
            exact hrc')
        rw [hb₁, cellAt_setCell_ne _ _ _ _ _ _ hneq]
        exact h3'
      have hall₁ : ∀ rc' ∈ cells₀, rc'.1 < 10 ∧ rc'.2 < 10 ∧
          (cellAt b₁ rc'.1 rc'.2).shipId = some sid := by
        intro rc' hrc'
        obtain ⟨h1', h2', h3'⟩ := hall rc' hrc'
        refine ⟨h1', h2', ?_⟩
        by_cases hsame : rc.1 = rc'.1 ∧ rc.2 = rc'.2
        · obtain ⟨he1, he2⟩ := hsame
          rw [hb₁, ← he1, ← he2, cellAt_setCell_self _ _ _ _ hrlen hclen]
        · rw [hb₁, cellAt_setCell_ne _ _ _ _ _ _ hsame]
          exact h3'
      obtain ⟨ihres, ihboard⟩ := ih b₁ ships₁ { sh with hits := sh.hits + 1 }
        hwf₁ hfind₁ hcount₁ hne₁ hnodup₁ horder₁ hall₁
      constructor
      · simp only [List.length_cons]
        rw [ihres]
        have hlen2 : (rc2 :: rest2).length = rest2.length + 1 := by simp
        rw [hlen2]
        simp [List.replicate_succ]
      · exact ihboard

/-- C5: for a placed ship occupying duplicate-free in-range cells `cells` on a
well-formed board — each cell `ship`-stated and owned by the ship, whose hit
count starts at zero and whose length equals the cell count — firing the
cells in any order yields `hit` for every shot but the last and `sunk`
exactly on the last, after which every cell of the ship reads `sunk`. -/
theorem C5_roundtrip (b : Board) (ships : List Ship) (sid : Nat) (sh : Ship)
    (cells order : List (Nat × Nat))
    (hwf : WFBoard b)
    (hfind : ships.find? (fun s => s.id == sid) = some sh)
    (hhits : sh.hits = 0)
    (hlen : sh.length = cells.length)
    (hne : cells ≠ [])
    (hnodup : cells.Nodup)
    (hcells : ∀ rc ∈ cells, rc.1 < 10 ∧ rc.2 < 10 ∧
      cellAt b rc.1 rc.2 = ⟨CellState.ship, some sid⟩)
    (hperm : order.Perm cells) :
    (fireAll b ships order).1 =
      List.replicate (cells.length - 1) ShotResult.hit ++ [ShotResult.sunk] ∧
    ∀ rc ∈ cells, (cellAt (fireAll b ships order).2.1 rc.1 rc.2).state = CellState.sunk := by
  have hlen' : order.length = cells.length := hperm.length_eq
  have haux := C5_aux sid cells order b ships sh hwf hfind
    (by rw [hlen', hhits, hlen]; simp)
    (by
      intro h0
      rw [h0] at hlen'
      exact hne (List.length_eq_zero.mp hlen'.symm))
    (hperm.nodup_iff.mpr hnodup)
    (fun rc hrc => hcells rc (hperm.mem_iff.mp hrc))
    (fun rc hrc => by
      obtain ⟨h1, h2, h3⟩ := hcells rc hrc
      exact ⟨h1, h2, by rw [h3]⟩)
  rw [hlen'] at haux
  exact haux

/-- Witness for C5: the length-2 ship at (0,0)-(0,1) fired in reversed order
yields `[hit, sunk]`. -/
theorem C5_roundtrip_witness :
    (fireAll c5Board createShips [(0, 1), (0, 0)]).1 =
      List.replicate 1 ShotResult.hit ++ [ShotResult.sunk] :=
  (C5_roundtrip c5Board createShips 4 ⟨4, 2, 0, false, false⟩ [(0, 0), (0, 1)] [(0, 1), (0, 0)]
    (by unfold WFBoard; exact ⟨by decide, by decide⟩)
    (by decide) (by decide) (by decide) (by decide) (by decide) (by decide) (by decide)).1

/-! ## Claim C3 -/

theorem tryPlaceShip_attempts_le (b : Board) (ship : Ship) (ρ : Rng) (fuel : Nat) :
    (tryPlaceShip b ship ρ fuel).2.2.2 ≤ fuel := by
  induction fuel generalizing ρ with
  | zero => simp [tryPlaceShip]
  | succ n ih =>
    simp only [tryPlaceShip]
    split
    · simp
    · simpa using ih _

theorem tryPlaceShip_all_fail (b : Board) (ship : Ship) (ρ : Rng) (fuel : Nat)
    (hfail : ∀ r : Nat, r < 10 → ∀ c : Nat, c < 10 → ∀ h : Bool,
      canPlaceShip b r c ship.length h = false) :
    (tryPlaceShip b ship ρ fuel).1 = b ∧
    (tryPlaceShip b ship ρ fuel).2.2.1 = false ∧
    (tryPlaceShip b ship ρ fuel).2.2.2 = fuel := by
  induction fuel generalizing ρ with
  | zero => simp [tryPlaceShip]
  | succ n ih =>
    simp only [tryPlaceShip]
    rw [if_neg (by
      have := hfail (((ρ.next).2.next).1 % BOARD_SIZE) (Nat.mod_lt _ (by decide))
        (((((ρ.next).2.next).2).next).1 % BOARD_SIZE)
        (Nat.mod_lt _ (by decide)) ((ρ.next).1 % 2 == 0)
      simp only [this]
      simp)]
    obtain ⟨h1, h2, h3⟩ := ih ((((ρ.next).2.next).2).next).2
    exact ⟨h1, h2, by simp [h3]⟩

/-- C3 counterexample: on a fully occupied board the destroyer's placement
loop gives the ship up unplaced after exactly 100 draws, not at least 1000. -/
theorem C3_counterexample : ¬ C3Claim := by
  intro h
  have hbound := h fullBoard dShip rng0 (by decide)
  have heval : (tryPlaceShip fullBoard dShip rng0 100).2.2.2 = 100 := by decide
  rw [heval] at hbound
  exact absurd hbound (by decide)

/-- C3 (amended): the per-ship loop of `placeShipsRandomly` draws at most its
fuel (100 at every call site) random placements; when no valid placement
exists it stops after exactly 100 draws with the board unchanged and the ship
unplaced, and `placeShipsRandomly` silently carries on with the remaining
ships — there is no error channel. -/
theorem C3_bounded_silent_retry :
    (∀ (b : Board) (ship : Ship) (ρ : Rng) (fuel : Nat),
      (tryPlaceShip b ship ρ fuel).2.2.2 ≤ fuel)
    ∧ (∀ (b : Board) (ship : Ship) (ρ : Rng),
      (∀ r : Nat, r < 10 → ∀ c : Nat, c < 10 → ∀ h : Bool,
        canPlaceShip b r c ship.length h = false) →
      (tryPlaceShip b ship ρ 100).1 = b ∧
      (tryPlaceShip b ship ρ 100).2.2.1 = false ∧
      (tryPlaceShip b ship ρ 100).2.2.2 = 100)
    ∧ (∀ (b : Board) (ship : Ship) (rest : List Ship) (ρ : Rng),
      (∀ r : Nat, r < 10 → ∀ c : Nat, c < 10 → ∀ h : Bool,
        canPlaceShip b r c ship.length h = false) →
      placeShipsRandomly b (ship :: rest) ρ =
        placeShipsRandomly b rest (tryPlaceShip b ship ρ 100).2.1) := by
  refine ⟨tryPlaceShip_attempts_le, fun b ship ρ h => tryPlaceShip_all_fail b ship ρ 100 h, ?_⟩
  intro b ship rest ρ hfail
  obtain ⟨h1, _, _⟩ := tryPlaceShip_all_fail b ship ρ 100 hfail
  simp only [placeShipsRandomly, List.foldl_cons]
  rw [h1]

/-- Witness for C3's amended statement: the fully occupied board with the
destroyer. -/
theorem C3_bounded_silent_retry_witness :
    (tryPlaceShip fullBoard dShip rng0 100).1 = fullBoard ∧
    (tryPlaceShip fullBoard dShip rng0 100).2.2.1 = false ∧
    (tryPlaceShip fullBoard dShip rng0 100).2.2.2 = 100 :=
  C3_bounded_silent_retry.2.1 fullBoard dShip rng0 (by decide)

/-! ## Claim C6 -/

theorem weightedPick_mem (r : Int) (l : List (Coord × Nat)) (c : Coord)
    (h : weightedPick r l = some c) : c ∈ l.map (fun x => x.1) := by
  induction l generalizing r with
  | nil => simp [weightedPick] at h
  | cons x rest ih =>
    simp only [weightedPick] at h
    split at h
    · injection h with h
      subst h
      simp
    · simp only [List.map_cons, List.mem_cons]
      exact Or.inr (ih _ h)

theorem parityCandidates_props (s : AIState) (x : Coord × Nat)
    (h : x ∈ parityCandidates s) :
    x.1 ∈ coordGrid ∧ (x.1.row + x.1.col) % 2 = 0 ∧ x.1 ∉ s.shotsFired ∧ 0 < x.2 := by
  obtain ⟨p, hp, heq⟩ := List.mem_filterMap.mp h
  by_cases hc : ((p.row + p.col) % 2 == 0 && !s.hasShot p.row p.col) = true
  · rw [if_pos hc] at heq
    by_cases hs : calculateCellScore s p.row p.col > 0
    · rw [if_pos hs] at heq
      injection heq with heq
      subst heq
      obtain ⟨h1, h2⟩ := (Bool.and_eq_true _ _).mp hc
      refine ⟨hp, by simpa using h1, ?_, hs⟩
      have h2' : s.hasShot p.row p.col = false := by simpa using h2
      simpa [AIState.hasShot] using h2'
    · rw [if_neg hs] at heq
      exact absurd heq (by simp)
  · rw [if_neg hc] at heq
    exact absurd heq (by simp)

theorem allCandidates_props (s : AIState) (x : Coord × Nat)
    (h : x ∈ allCandidates s) :
    x.1 ∈ coordGrid ∧ x.1 ∉ s.shotsFired ∧ 0 < x.2 := by
  obtain ⟨p, hp, heq⟩ := List.mem_filterMap.mp h
  by_cases hc : (!s.hasShot p.row p.col) = true
  · rw [if_pos hc] at heq
    by_cases hs : calculateCellScore s p.row p.col > 0
    · rw [if_pos hs] at heq
      injection heq with heq
      subst heq
      refine ⟨hp, ?_, hs⟩
      have h2' : s.hasShot p.row p.col = false := by simpa using hc
      simpa [AIState.hasShot] using h2'
    · rw [if_neg hs] at heq
      exact absurd heq (by simp)
  · rw [if_neg hc] at heq
    exact absurd heq (by simp)

theorem getSmartHuntShot_mem_parity (ρ : Rng) (s : AIState)
    (hne : parityCandidates s ≠ []) :
    getSmartHuntShot ρ s ∈ (parityCandidates s).map (fun x => x.1) := by
  have hlen : ((parityCandidates s).length == 0) = false := by
    simp [List.length_eq_zero, hne]
  unfold getSmartHuntShot
  simp only [hlen, Bool.false_eq_true, if_false]
  split
  · next c hpick => exact weightedPick_mem _ _ _ hpick
  · next hpick =>
    have hlt : ((Rng.next (ρ.next).2).1 % (parityCandidates s).length)
        < (parityCandidates s).length := by
      refine Nat.mod_lt _ ?_
      cases hp : parityCandidates s with
      | nil => exact absurd hp hne
      | cons a t => simp [hp]
    split
    · next e hget =>
      exact List.mem_map.mpr ⟨e, List.get?_mem hget, rfl⟩
    · next hget =>
      exact absurd hget (by
        rw [List.get?_eq_getElem?, List.getElem?_eq_getElem hlt]
        simp)

theorem getSmartHuntShot_mem_all (ρ : Rng) (s : AIState)
    (hpar : parityCandidates s = []) (hne : allCandidates s ≠ []) :
    getSmartHuntShot ρ s ∈ (allCandidates s).map (fun x => x.1) := by
  have hlen0 : ((parityCandidates s).length == 0) = true := by simp [hpar]
  have hlen : ((allCandidates s).length == 0) = false := by
    simp [List.length_eq_zero, hne]
  unfold getSmartHuntShot
  simp only [hlen0, if_true, hlen, Bool.false_eq_true, if_false]
  split
  · next c hpick => exact weightedPick_mem _ _ _ hpick
  · next hpick =>
    have hlt : ((Rng.next (ρ.next).2).1 % (allCandidates s).length)
        < (allCandidates s).length := by
      refine Nat.mod_lt _ ?_
      cases hp : allCandidates s with
      | nil => exact absurd hp hne
      | cons a t => simp [hp]
    split
    · next e hget =>
      exact List.mem_map.mpr ⟨e, List.get?_mem hget, rfl⟩
    · next hget =>
      exact absurd hget (by
        rw [List.get?_eq_getElem?, List.getElem?_eq_getElem hlt]
        simp)

theorem getSmartHuntShot_scan_fallback (ρ : Rng) (s : AIState)
    (hpar : parityCandidates s = []) (hall : allCandidates s = [])
    (hex : ∃ p ∈ coordGrid, p ∉ s.shotsFired) :
    getSmartHuntShot ρ s ∈ coordGrid ∧ getSmartHuntShot ρ s ∉ s.shotsFired := by
  unfold getSmartHuntShot
  simp only [hpar, List.length_nil, if_true, hall, beq_self_eq_true]
  split
  · next p hfind =>
    have hmem := List.mem_of_find?_eq_some hfind
    have hprop := List.find?_some hfind
    refine ⟨hmem, ?_⟩
    have : s.hasShot p.row p.col = false := by simpa using hprop
    simpa [AIState.hasShot] using this
  · next hfind =>
    obtain ⟨p, hp, hps⟩ := hex
    have := List.find?_eq_none.mp hfind p hp
    exact absurd (by simpa [AIState.hasShot] using hps) this

theorem getSmartHuntShot_unfired (ρ : Rng) (s : AIState)
    (hex : ∃ p ∈ coordGrid, p ∉ s.shotsFired) :
    getSmartHuntShot ρ s ∉ s.shotsFired := by
  by_cases hpar : parityCandidates s = []
  · by_cases hall : allCandidates s = []
    · exact (getSmartHuntShot_scan_fallback ρ s hpar hall hex).2
    · have hmem := getSmartHuntShot_mem_all ρ s hpar hall
      obtain ⟨x, hx, hxe⟩ := List.mem_map.mp hmem
      rw [← hxe]
      exact (allCandidates_props s x hx).2.1
  · have hmem := getSmartHuntShot_mem_parity ρ s hpar
    obtain ⟨x, hx, hxe⟩ := List.mem_map.mp hmem
    rw [← hxe]
    exact (parityCandidates_props s x hx).2.2.1

/-- C6: a fresh engine's hunt shot always lands on the checkerboard — for
every random stream the returned coordinate has even `(row + col)` parity —
and in general the parity pass is abandoned only when it holds no unfired
positive-score cell (the shot then comes from the full-board pass), and the
full pass only when scoring yields nothing at all (the shot then falls back
to an unfired cell whenever one exists). -/
theorem C6_hunt_checkerboard :
    (∀ ρ : Rng,
      (((getNextShot ρ initialState).1.row + (getNextShot ρ initialState).1.col) % 2 = 0))
    ∧ (∀ (ρ : Rng) (s : AIState), parityCandidates s ≠ [] →
        getSmartHuntShot ρ s ∈ (parityCandidates s).map (fun x => x.1))
    ∧ (∀ (ρ : Rng) (s : AIState), parityCandidates s = [] → allCandidates s ≠ [] →
        getSmartHuntShot ρ s ∈ (allCandidates s).map (fun x => x.1))
    ∧ (∀ (ρ : Rng) (s : AIState), parityCandidates s = [] → allCandidates s = [] →
        (∃ p ∈ coordGrid, p ∉ s.shotsFired) →
        getSmartHuntShot ρ s ∈ coordGrid ∧ getSmartHuntShot ρ s ∉ s.shotsFired) := by
  refine ⟨?_, getSmartHuntShot_mem_parity, getSmartHuntShot_mem_all,
    getSmartHuntShot_scan_fallback⟩
  intro ρ
  have heq : (getNextShot ρ initialState).1 = getSmartHuntShot ρ initialState := rfl
  rw [heq]
  have hne : parityCandidates initialState ≠ [] := by decide
  have hmem := getSmartHuntShot_mem_parity ρ initialState hne
  obtain ⟨x, hx, hxe⟩ := List.mem_map.mp hmem
  rw [← hxe]
  exact (parityCandidates_props initialState x hx).2.1

/-- Witness for C6: the fresh state exercises the parity pass; `c6stateC`
(all parity cells fired, one remembered hit) exercises the full-board pass;
`c6stateD` (all parity cells fired as plain misses) exercises the final
unfired-cell fallback. -/
theorem C6_hunt_checkerboard_witness :
    getSmartHuntShot rng0 initialState ∈ (parityCandidates initialState).map (fun x => x.1) ∧
    getSmartHuntShot rng0 c6stateC ∈ (allCandidates c6stateC).map (fun x => x.1) ∧
    (getSmartHuntShot rng0 c6stateD ∈ coordGrid ∧
      getSmartHuntShot rng0 c6stateD ∉ c6stateD.shotsFired) :=
  ⟨C6_hunt_checkerboard.2.1 rng0 initialState (by decide),
   C6_hunt_checkerboard.2.2.1 rng0 c6stateC (by decide) (by decide),
   C6_hunt_checkerboard.2.2.2 rng0 c6stateD (by decide) (by decide)
     ⟨⟨0, 1⟩, by decide, by decide⟩⟩

/-! ## Claim C10 -/

theorem rebuildTargetQueue_frame (s : AIState) :
    (rebuildTargetQueue s).shotsFired = s.shotsFired ∧
    (rebuildTargetQueue s).hits = s.hits ∧
    (rebuildTargetQueue s).mode = s.mode ∧
    (rebuildTargetQueue s).misses = s.misses ∧
    (rebuildTargetQueue s).remainingShipSizes = s.remainingShipSizes ∧
    (rebuildTargetQueue s).lastHit = s.lastHit ∧
    (rebuildTargetQueue s).firstHit = s.firstHit ∧
    (rebuildTargetQueue s).lastProbeDirection = s.lastProbeDirection := by
  unfold rebuildTargetQueue
  cases hsc : scanLines s with
  | none =>
    dsimp only
    split <;> simp
  | some hl =>
    obtain ⟨horiz, line⟩ := hl
    dsimp only
    split <;> (try split) <;> simp

theorem filterValidHits_sublist (ρ : Rng) (s : AIState) (l : List Coord) :
    (filterValidHits ρ s l).1.Sublist l := by
  induction l generalizing ρ with
  | nil => simp [filterValidHits]
  | cons h t ih =>
    simp only [filterValidHits]
    split
    · exact List.Sublist.cons₂ h (ih _)
    · exact List.Sublist.cons h (ih _)

theorem getNextShotCore_frame (ρ : Rng) (s₂ : AIState) :
    (getNextShotCore ρ s₂).2.shotsFired = s₂.shotsFired ∧
    (getNextShotCore ρ s₂).2.misses = s₂.misses ∧
    (getNextShotCore ρ s₂).2.remainingShipSizes = s₂.remainingShipSizes ∧
    (getNextShotCore ρ s₂).2.lastHit = s₂.lastHit ∧
    (getNextShotCore ρ s₂).2.firstHit = s₂.firstHit ∧
    (getNextShotCore ρ s₂).2.lastProbeDirection = s₂.lastProbeDirection ∧
    (getNextShotCore ρ s₂).2.hits.Sublist s₂.hits := by
  unfold getNextShotCore
  cases hq : s₂.targetQueue with
  | cons shot rest =>
    exact ⟨rfl, rfl, rfl, rfl, rfl, rfl, List.Sublist.refl _⟩
  | nil =>
    dsimp only
    split
    · split <;> exact ⟨rfl, rfl, rfl, rfl, rfl, rfl, filterValidHits_sublist ρ s₂ s₂.hits⟩
    · split <;> exact ⟨rfl, rfl, rfl, rfl, rfl, rfl, List.Sublist.refl _⟩

/-- C10: `getNextShot` never changes the fired-coordinate set, the miss set,
the remaining fleet lengths, nor the last/first-hit memory — it may change
only the mode, the target queue, and the open-hit list, and the latter only
by pruning (the resulting hit list is a sublist of the input's). -/
theorem C10_getNextShot_frame (ρ : Rng) (s : AIState) :
    (getNextShot ρ s).2.shotsFired = s.shotsFired ∧
    (getNextShot ρ s).2.misses = s.misses ∧
    (getNextShot ρ s).2.remainingShipSizes = s.remainingShipSizes ∧
    (getNextShot ρ s).2.lastHit = s.lastHit ∧
    (getNextShot ρ s).2.firstHit = s.firstHit ∧
    (getNextShot ρ s).2.lastProbeDirection = s.lastProbeDirection ∧
    (getNextShot ρ s).2.hits.Sublist s.hits := by
  unfold getNextShot
  by_cases hh : s.hits.length > 0
  · rw [if_pos hh]
    dsimp only
    set s₂ := if ((({ s with mode := Mode.target } : AIState).targetQueue.length == 0) = true) then
      rebuildTargetQueue { s with mode := Mode.target } else ({ s with mode := Mode.target } : AIState)
      with hs₂
    have hframe := rebuildTargetQueue_frame ({ s with mode := Mode.target } : AIState)
    have hs₂frame : s₂.shotsFired = s.shotsFired ∧ s₂.hits = s.hits ∧
        s₂.misses = s.misses ∧ s₂.remainingShipSizes = s.remainingShipSizes ∧
        s₂.lastHit = s.lastHit ∧ s₂.firstHit = s.firstHit ∧
        s₂.lastProbeDirection = s.lastProbeDirection := by
      rw [hs₂]
      split
      · exact ⟨hframe.1, hframe.2.1, hframe.2.2.2.1, hframe.2.2.2.2.1,
          hframe.2.2.2.2.2.1, hframe.2.2.2.2.2.2.1, hframe.2.2.2.2.2.2.2⟩
      · exact ⟨rfl, rfl, rfl, rfl, rfl, rfl, rfl⟩
    obtain ⟨hf1, hf2, hf3, hf4, hf5, hf6, hf7⟩ := hs₂frame
    obtain ⟨hc1, hc2, hc3, hc4, hc5, hc6, hc7⟩ := getNextShotCore_frame ρ s₂
    exact ⟨hc1.trans hf1, hc2.trans hf3, hc3.trans hf4, hc4.trans hf5,
      hc5.trans hf6, hc6.trans hf7, hf2 ▸ hc7⟩
  · rw [if_neg hh]
    exact ⟨rfl, rfl, rfl, rfl, rfl, rfl, List.Sublist.refl _⟩

/-! ## Claim C1: queue-content lemmas -/

theorem mem_pushExt {s : AIState} {q : List Coord} {c x : Coord}
    (h : x ∈ pushExt s q c) : x ∈ q ∨ (x = c ∧ x ∉ s.shotsFired) := by
  unfold pushExt at h
  split at h
  · rcases List.mem_append.mp h with hq | hc
    · exact Or.inl hq
    · have hx : x = c := by simpa using hc
      subst hx
      rename_i hguard
      obtain ⟨_, h2⟩ := (Bool.and_eq_true _ _).mp hguard
      refine Or.inr ⟨rfl, ?_⟩
      have h2' : s.hasShot x.row x.col = false := by simpa using h2
      simpa [AIState.hasShot] using h2'
  · exact Or.inl h

theorem pushPair_unfired (s : AIState) (a b : Coord) :
    ∀ x ∈ pushExt s (pushExt s [] a) b, x ∉ s.shotsFired := by
  intro x hx
  rcases mem_pushExt hx with hx1 | ⟨_, hns⟩
  · rcases mem_pushExt hx1 with hnil | ⟨_, hns⟩
    · simp at hnil
    · exact hns
  · exact hns

theorem pushPair_nodup (s : AIState) (a b : Coord) (hab : a ≠ b) :
    (pushExt s (pushExt s [] a) b).Nodup := by
  unfold pushExt
  split <;> split <;> simp [hab]

theorem lineExtensions_unfired (s : AIState) (horiz : Bool) (line : List Coord) :
    ∀ x ∈ lineExtensions s horiz line, x ∉ s.shotsFired := by
  unfold lineExtensions
  cases line with
  | nil => simp
  | cons h t => cases horiz <;> exact pushPair_unfired s _ _

theorem stableSortBy_int_ne_nil {l : List Int} (hne : l ≠ []) :
    stableSortBy ltInt l ≠ [] := by
  intro h0
  have := (stableSortBy_perm ltInt l).length_eq
  rw [h0] at this
  exact hne (List.length_eq_zero.mp this.symm)

theorem lineExtensions_nodup (s : AIState) (horiz : Bool) (line : List Coord) :
    (lineExtensions s horiz line).Nodup := by
  unfold lineExtensions
  cases line with
  | nil => simp
  | cons h t =>
    cases horiz
    · refine pushPair_nodup s _ _ ?_
      have hne : ((h :: t).map (fun x : Coord => x.row)) ≠ [] := by simp
      have hsorted := stableSortBy_int_sorted ((h :: t).map (fun x : Coord => x.row))
      have hle := sorted_headD_le_getLastD (stableSortBy_int_ne_nil hne) hsorted
      intro hcontra
      have : (stableSortBy ltInt ((h :: t).map (fun x : Coord => x.row))).getLastD 0 + 1 =
          (stableSortBy ltInt ((h :: t).map (fun x : Coord => x.row))).headD 0 - 1 := by
        have := congrArg Coord.row hcontra
        simpa using this
      omega
    · refine pushPair_nodup s _ _ ?_
      have hne : ((h :: t).map (fun x : Coord => x.col)) ≠ [] := by simp
      have hsorted := stableSortBy_int_sorted ((h :: t).map (fun x : Coord => x.col))
      have hle := sorted_headD_le_getLastD (stableSortBy_int_ne_nil hne) hsorted
      intro hcontra
      have : (stableSortBy ltInt ((h :: t).map (fun x : Coord => x.col))).getLastD 0 + 1 =
          (stableSortBy ltInt ((h :: t).map (fun x : Coord => x.col))).headD 0 - 1 := by
        have := congrArg Coord.col hcontra
        simpa using this
      omega

theorem fchGo_gt (horiz : Bool) (t : List Coord) :
    ∀ prev, (∀ x ∈ fchGo horiz prev t,
      if horiz then prev.col < x.col else prev.row < x.row) ∧
      (fchGo horiz prev t).Pairwise
        (fun a b => if horiz then a.col < b.col else a.row < b.row) := by
  induction t with
  | nil => intro prev; constructor <;> simp [fchGo]
  | cons c rest ih =>
    intro prev
    cases horiz
    · by_cases hc : (c.row == prev.row + 1) = true
      · have hcr : c.row = prev.row + 1 := by simpa using hc
        simp only [fchGo, hc, if_true]
        obtain ⟨ih1, ih2⟩ := ih c
        constructor
        · intro x hx
          rcases List.mem_cons.mp hx with rfl | hx'
          · simp [hcr]
          · have := ih1 x hx'
            simp only [Bool.false_eq_true, if_false] at this ⊢
            omega
        · refine List.pairwise_cons.mpr ⟨?_, ih2⟩
          intro x hx
          exact ih1 x hx
      · simp [fchGo, hc]
    · by_cases hc : (c.col == prev.col + 1) = true
      · have hcr : c.col = prev.col + 1 := by simpa using hc
        simp only [fchGo, hc, if_true]
        obtain ⟨ih1, ih2⟩ := ih c
        constructor
        · intro x hx
          rcases List.mem_cons.mp hx with rfl | hx'
          · simp [hcr]
          · have := ih1 x hx'
            simp only [if_true] at this ⊢
            omega
        · refine List.pairwise_cons.mpr ⟨?_, ih2⟩
          intro x hx
          exact ih1 x hx
      · simp [fchGo, hc]

theorem findContinuousHits_pairwise (sorted : List Coord) (horiz : Bool) :
    (findContinuousHits sorted horiz).Pairwise
      (fun a b => if horiz then a.col < b.col else a.row < b.row) := by
  cases sorted with
  | nil => simp [findContinuousHits]
  | cons h t =>
    unfold findContinuousHits
    refine List.pairwise_cons.mpr ⟨?_, (fchGo_gt horiz t h).2⟩
    intro x hx
    exact (fchGo_gt horiz t h).1 x hx

theorem scanStep_ok (horiz : Bool) (acc : Option (Bool × List Coord) × Nat)
    (g : Int × List Coord)
    (hacc : ∀ hz l, acc.1 = some (hz, l) →
      l ≠ [] ∧ l.Pairwise (fun a b => if hz then a.col < b.col else a.row < b.row)) :
    ∀ hz l, (scanStep horiz acc g).1 = some (hz, l) →
      l ≠ [] ∧ l.Pairwise (fun a b => if hz then a.col < b.col else a.row < b.row) := by
  intro hz l h
  unfold scanStep at h
  split at h
  · split at h <;>
    · dsimp only at h
      split at h
      · simp only at h
        injection h with h1
        injection h1 with h1a h1b
        subst h1a
        subst h1b
        rename_i hlong
        refine ⟨?_, findContinuousHits_pairwise _ _⟩
        intro h0
        rw [h0] at hlong
        simp at hlong
      · exact hacc hz l h
  · exact hacc hz l h

theorem foldl_scanStep_ok (horiz : Bool) (gs : List (Int × List Coord)) :
    ∀ acc, (∀ hz l, acc.1 = some (hz, l) →
      l ≠ [] ∧ l.Pairwise (fun a b => if hz then a.col < b.col else a.row < b.row)) →
    ∀ hz l, (gs.foldl (scanStep horiz) acc).1 = some (hz, l) →
      l ≠ [] ∧ l.Pairwise (fun a b => if hz then a.col < b.col else a.row < b.row) := by
  induction gs with
  | nil => intro acc hacc; exact hacc
  | cons g rest ih =>
    intro acc hacc
    exact ih (scanStep horiz acc g) (scanStep_ok horiz acc g hacc)

theorem scanLines_ok (s : AIState) (horiz : Bool) (line : List Coord)
    (h : scanLines s = some (horiz, line)) :
    line ≠ [] ∧
      line.Pairwise (fun a b => if horiz then a.col < b.col else a.row < b.row) := by
  unfold scanLines at h
  refine foldl_scanStep_ok false _ _ ?_ horiz line h
  intro hz l hl
  refine foldl_scanStep_ok true _ _ ?_ hz l hl
  intro hz' l' hl'
  simp at hl' 

theorem perpTargets_unfired (s : AIState) (horiz : Bool) (line : List Coord) :
    ∀ x ∈ perpTargets s horiz line, x.1 ∉ s.shotsFired := by
  intro x hx
  obtain ⟨hit, _, hxin⟩ := List.mem_flatMap.mp hx
  have hofguard : ∀ (r co : Int) (n : Nat),
      x ∈ (if isValid r co && !s.hasShot r co then [((⟨r, co⟩ : Coord), n)] else []) →
      x.1 ∉ s.shotsFired := by
    intro r co n hmem
    split at hmem
    · rename_i hguard
      have hxeq : x = (⟨r, co⟩, n) := by simpa using hmem
      subst hxeq
      obtain ⟨_, h2⟩ := (Bool.and_eq_true _ _).mp hguard
      have h2' : s.hasShot r co = false := by simpa using h2
      simpa [AIState.hasShot] using h2'
    · simp at hmem
  cases horiz <;>
    · simp only [Bool.false_eq_true, if_false, if_true] at hxin
      rcases List.mem_append.mp hxin with hm | hm
      · exact hofguard _ _ _ hm
      · exact hofguard _ _ _ hm

theorem perpTargets_axis (s : AIState) (horiz : Bool) (line : List Coord) :
    ∀ x ∈ perpTargets s horiz line, ∃ hit ∈ line,
      (if horiz then x.1.col = hit.col else x.1.row = hit.row) := by
  intro x hx
  obtain ⟨hit, hhit, hxin⟩ := List.mem_flatMap.mp hx
  refine ⟨hit, hhit, ?_⟩
  cases horiz <;>
    · simp only [Bool.false_eq_true, if_false, if_true] at hxin ⊢
      rcases List.mem_append.mp hxin with hm | hm <;>
        · split at hm
          · have hxeq := List.mem_singleton.mp hm
            subst hxeq
            rfl
          · simp at hm

theorem perpTargets_block_rows (s : AIState) (horiz : Bool) (hit : Coord) :
    ∀ x ∈ (perpTargets s horiz [hit]),
      (if horiz then x.1.row = hit.row - 1 ∨ x.1.row = hit.row + 1
       else x.1.col = hit.col - 1 ∨ x.1.col = hit.col + 1) := by
  intro x hx
  unfold perpTargets at hx
  cases horiz <;>
    · simp only [List.flatMap_cons, List.flatMap_nil, List.append_nil, Bool.false_eq_true,
        if_false, if_true] at hx
      rcases List.mem_append.mp hx with hm | hm <;>
        · split at hm
          · have hxeq := List.mem_singleton.mp hm
            subst hxeq
            simp
          · simp at hm

theorem perpTargets_cons (s : AIState) (horiz : Bool) (hit : Coord) (t : List Coord) :
    perpTargets s horiz (hit :: t) = perpTargets s horiz [hit] ++ perpTargets s horiz t := by
  unfold perpTargets
  simp

theorem perpTargets_nodup (s : AIState) (horiz : Bool) (line : List Coord)
    (hpair : line.Pairwise (fun a b => if horiz then a.col < b.col else a.row < b.row)) :
    ((perpTargets s horiz line).map (fun x => x.1)).Nodup := by
  induction line with
  | nil =>
    unfold perpTargets
    simp
  | cons hit t ih =>
    rw [perpTargets_cons, List.map_append]
    obtain ⟨hhead, htail⟩ := List.pairwise_cons.mp hpair
    refine (List.nodup_append).mpr ⟨?_, ih htail, ?_⟩
    · unfold perpTargets
      cases horiz
      · simp only [List.flatMap_cons, List.flatMap_nil, List.append_nil, Bool.false_eq_true,
          if_false]
        split <;> split <;> simp [Coord.mk.injEq] <;> omega
      · simp only [List.flatMap_cons, List.flatMap_nil, List.append_nil, if_true]
        split <;> split <;> simp [Coord.mk.injEq] <;> omega
    · intro y hy hy'
      obtain ⟨xy, hxy, hxyeq⟩ := List.mem_map.mp hy
      obtain ⟨xz, hxz, hxzeq⟩ := List.mem_map.mp hy'
      obtain ⟨h1, hh1, he1⟩ := perpTargets_axis s horiz [hit] xy hxy
      obtain ⟨h2, hh2, he2⟩ := perpTargets_axis s horiz t xz hxz
      have hh1' : h1 = hit := by simpa using hh1
      subst hh1'
      have hlt := hhead h2 hh2
      have hyz : xy.1 = xz.1 := by rw [hxyeq, hxzeq]
      cases horiz
      · simp only [Bool.false_eq_true, if_false] at he1 he2 hlt
        rw [hyz] at he1
        omega
      · simp only [if_true] at he1 he2 hlt
        rw [hyz] at he1
        omega

theorem foldl_preserve {α β : Type} (P : α → Prop) (f : α → β → α)
    (hf : ∀ a b, P a → P (f a b)) : ∀ (l : List β) (a : α), P a → P (l.foldl f a) := by
  intro l
  induction l with
  | nil => intro a ha; simpa using ha
  | cons b rest ih =>
    intro a ha
    exact ih (f a b) (hf a b ha)

theorem allNeighborTargets_ok (s : AIState) :
    (∀ x ∈ allNeighborTargets s, x.1 ∉ s.shotsFired) ∧
    ((allNeighborTargets s).map (fun x => x.1)).Nodup := by
  unfold allNeighborTargets
  have hstep : ∀ (hit : Coord) (acc : List (Coord × Nat)) (d : Coord × Dir),
      ((∀ x ∈ acc, x.1 ∉ s.shotsFired) ∧ (acc.map (fun x => x.1)).Nodup) →
      ((∀ x ∈ (if isValid d.1.row d.1.col && !s.hasShot d.1.row d.1.col &&
            !(acc.any (fun n => n.1.row == d.1.row && n.1.col == d.1.col)) then
          acc ++ [(d.1, scoreDirectionFromHit s hit.row hit.col d.2)]
        else acc), x.1 ∉ s.shotsFired) ∧
        (((if isValid d.1.row d.1.col && !s.hasShot d.1.row d.1.col &&
            !(acc.any (fun n => n.1.row == d.1.row && n.1.col == d.1.col)) then
          acc ++ [(d.1, scoreDirectionFromHit s hit.row hit.col d.2)]
        else acc)).map (fun x => x.1)).Nodup) := by
    intro hit acc d ⟨hunf, hnd⟩
    split
    · rename_i hguard
      obtain ⟨hg1, hg3⟩ := (Bool.and_eq_true _ _).mp hguard
      obtain ⟨_, hg2⟩ := (Bool.and_eq_true _ _).mp hg1
      constructor
      · intro x hx
        rcases List.mem_append.mp hx with hmem | hmem
        · exact hunf x hmem
        · have hxeq : x = (d.1, scoreDirectionFromHit s hit.row hit.col d.2) := by
            simpa using hmem
          subst hxeq
          have h2' : s.hasShot d.1.row d.1.col = false := by simpa using hg2
          simpa [AIState.hasShot] using h2'
      · rw [List.map_append]
        refine List.nodup_append.mpr ⟨hnd, by simp, ?_⟩
        intro y hy hy'
        have hyd : y = d.1 := by simpa using hy'
        subst hyd
        obtain ⟨n, hn, hneq⟩ := List.mem_map.mp hy
        have hany : acc.any (fun n => n.1.row == d.1.row && n.1.col == d.1.col) = false := by
          simpa using hg3
        have := List.any_eq_false.mp hany n hn
        rw [hneq] at this
        simp at this
    · exact ⟨hunf, hnd⟩
  refine foldl_preserve
    (fun (acc : List (Coord × Nat)) =>
      (∀ x ∈ acc, x.1 ∉ s.shotsFired) ∧ (acc.map (fun x => x.1)).Nodup)
    _ ?_ s.hits [] (by simp)
  intro acc hit hacc
  exact foldl_preserve
    (fun (acc : List (Coord × Nat)) =>
      (∀ x ∈ acc, x.1 ∉ s.shotsFired) ∧ (acc.map (fun x => x.1)).Nodup)
    _ (hstep hit) (dirNeighbors hit) acc hacc

theorem mem_sortmap {l : List (Coord × Nat)} {c : Coord}
    (h : c ∈ (stableSortBy ltScoreDesc l).map (fun x => x.1)) : ∃ x ∈ l, x.1 = c := by
  obtain ⟨x, hx, hxe⟩ := List.mem_map.mp h
  exact ⟨x, (stableSortBy_perm ltScoreDesc l).mem_iff.mp hx, hxe⟩

theorem sortmap_nodup {l : List (Coord × Nat)}
    (h : (l.map (fun x => x.1)).Nodup) :
    ((stableSortBy ltScoreDesc l).map (fun x => x.1)).Nodup :=
  (((stableSortBy_perm ltScoreDesc l).map (fun x => x.1)).nodup_iff).mpr h

theorem scanLines_hits_nil (s : AIState) (h : s.hits = []) : scanLines s = none := by
  unfold scanLines groups groupKeys
  rw [h]
  rfl

theorem allNeighborTargets_hits_nil (s : AIState) (h : s.hits = []) :
    allNeighborTargets s = [] := by
  unfold allNeighborTargets
  rw [h]
  rfl

theorem rebuildTargetQueue_inv (s : AIState) (hq : s.targetQueue = []) :
    (∀ c ∈ (rebuildTargetQueue s).targetQueue, c ∉ s.shotsFired) ∧
    (rebuildTargetQueue s).targetQueue.Nodup ∧
    (s.hits = [] → (rebuildTargetQueue s).targetQueue = []) := by
  unfold rebuildTargetQueue
  cases hsc : scanLines s with
  | none =>
    dsimp only
    split
    · refine ⟨?_, ?_, ?_⟩
      · intro c hc
        simp only [hq, List.nil_append] at hc
        obtain ⟨x, hx, hxe⟩ := mem_sortmap hc
        rw [← hxe]
        exact (allNeighborTargets_ok s).1 x hx
      · simp only [hq, List.nil_append]
        exact sortmap_nodup (allNeighborTargets_ok s).2
      · intro hh
        simp only [hq, List.nil_append, allNeighborTargets_hits_nil s hh]
        rfl
    · rename_i hcond
      simp [hq] at hcond
  | some hl =>
    obtain ⟨horiz, line⟩ := hl
    obtain ⟨hlne, hpair⟩ := scanLines_ok s horiz line hsc
    have hhits : s.hits ≠ [] := by
      intro hh
      rw [scanLines_hits_nil s hh] at hsc
      exact absurd hsc (by simp)
    dsimp only
    split
    · rename_i hcond
      have hext : lineExtensions s horiz line = [] := by
        rw [hq] at hcond
        simp only [List.nil_append] at hcond
        exact List.length_eq_zero.mp (beq_iff_eq.mp hcond)
      have hq2 : s.targetQueue ++ lineExtensions s horiz line = [] := by
        rw [hq, hext]
        rfl
      split
      · rename_i hcond2
        have hperp : (s.targetQueue ++ lineExtensions s horiz line) ++
            (stableSortBy ltScoreDesc (perpTargets
              { s with targetQueue := s.targetQueue ++ lineExtensions s horiz line }
              horiz line)).map (fun t => t.1) = [] :=
          List.length_eq_zero.mp (beq_iff_eq.mp hcond2)
        refine ⟨?_, ?_, fun hh => absurd hh hhits⟩
        · intro c hc
          simp only [hperp, List.nil_append] at hc
          obtain ⟨x, hx, hxe⟩ := mem_sortmap hc
          rw [← hxe]
          exact (allNeighborTargets_ok _).1 x hx
        · simp only [hperp, List.nil_append]
          exact sortmap_nodup (allNeighborTargets_ok _).2
      · refine ⟨?_, ?_, fun hh => absurd hh hhits⟩
        · intro c hc
          simp only [hq2, List.nil_append] at hc
          obtain ⟨x, hx, hxe⟩ := mem_sortmap hc
          rw [← hxe]
          exact perpTargets_unfired
            { s with targetQueue := s.targetQueue ++ lineExtensions s horiz line }
            horiz line x hx
        · simp only [hq2, List.nil_append]
          exact sortmap_nodup (perpTargets_nodup
            { s with targetQueue := s.targetQueue ++ lineExtensions s horiz line }
            horiz line hpair)
    · rename_i hcond
      refine ⟨?_, ?_, fun hh => absurd hh hhits⟩
      · intro c hc
        simp only [hq, List.nil_append] at hc
        exact lineExtensions_unfired s horiz line c hc
      · simp only [hq, List.nil_append]
        exact lineExtensions_nodup s horiz line

theorem inQueue_false_not_mem {q : List Coord} {c : Coord} (h : inQueue q c = false) :
    c ∉ q := by
  intro hc
  have := List.any_eq_false.mp h c hc
  simp at this

theorem firstHitQueue_ok (s : AIState) (coord : Coord) :
    (∀ c ∈ firstHitQueue s coord, c ∉ s.shotsFired) ∧ (firstHitQueue s coord).Nodup := by
  unfold firstHitQueue
  constructor
  · intro c hc
    obtain ⟨x, hx, hxe⟩ := mem_sortmap hc
    obtain ⟨d, hd, hde⟩ := List.mem_map.mp hx
    have hdfilter := List.of_mem_filter hd
    obtain ⟨_, h2⟩ := (Bool.and_eq_true _ _).mp hdfilter
    have h2' : s.hasShot d.1.row d.1.col = false := by simpa using h2
    have : d.1 ∉ s.shotsFired := by simpa [AIState.hasShot] using h2'
    rw [← hxe, ← hde]
    exact this
  · refine sortmap_nodup ?_
    rw [List.map_map]
    have hsub : ((dirNeighbors coord).filter
        (fun d => isValid d.1.row d.1.col && !s.hasShot d.1.row d.1.col)).Sublist
        (dirNeighbors coord) := List.filter_sublist _
    have hmapsub := hsub.map (fun d : Coord × Dir => d.1)
    have hnodup4 : ((dirNeighbors coord).map (fun d : Coord × Dir => d.1)).Nodup := by
      simp only [dirNeighbors, List.map_cons, List.map_nil]
      simp only [List.nodup_cons, List.mem_cons, List.mem_singleton, List.not_mem_nil,
        List.nodup_nil, Coord.mk.injEq]
      refine ⟨?_, ?_, ?_, ?_⟩ <;> simp <;> omega
    exact List.Nodup.sublist hmapsub hnodup4

theorem pushPair_sorted_nodup_h (s : AIState) (r : Int) (l : List Int) (hne : l ≠ []) :
    (pushExt s (pushExt s [] ⟨r, (stableSortBy ltInt l).getLastD 0 + 1⟩)
      ⟨r, (stableSortBy ltInt l).headD 0 - 1⟩).Nodup := by
  refine pushPair_nodup s _ _ ?_
  have hle := sorted_headD_le_getLastD (stableSortBy_int_ne_nil hne) (stableSortBy_int_sorted l)
  intro hcontra
  have := congrArg Coord.col hcontra
  simp only at this
  omega

theorem pushPair_sorted_nodup_v (s : AIState) (c : Int) (l : List Int) (hne : l ≠ []) :
    (pushExt s (pushExt s [] ⟨(stableSortBy ltInt l).getLastD 0 + 1, c⟩)
      ⟨(stableSortBy ltInt l).headD 0 - 1, c⟩).Nodup := by
  refine pushPair_nodup s _ _ ?_
  have hle := sorted_headD_le_getLastD (stableSortBy_int_ne_nil hne) (stableSortBy_int_sorted l)
  intro hcontra
  have := congrArg Coord.row hcontra
  simp only at this
  omega

theorem secondHitUpdate_inv (s : AIState) (coord : Coord)
    (hqu : ∀ c ∈ s.targetQueue, c ∉ s.shotsFired) (hqn : s.targetQueue.Nodup) :
    (∀ c ∈ (secondHitUpdate s coord).targetQueue, c ∉ s.shotsFired) ∧
    (secondHitUpdate s coord).targetQueue.Nodup ∧
    (secondHitUpdate s coord).shotsFired = s.shotsFired ∧
    (secondHitUpdate s coord).hits = s.hits := by
  unfold secondHitUpdate
  dsimp only
  split_ifs with h1 h2
  · exact ⟨pushPair_unfired s _ _,
      pushPair_sorted_nodup_h s _ [(s.hits.headD coord).col, coord.col] (by simp), rfl, rfl⟩
  · exact ⟨pushPair_unfired s _ _,
      pushPair_sorted_nodup_v s _ [(s.hits.headD coord).row, coord.row] (by simp), rfl, rfl⟩
  · exact ⟨hqu, hqn, rfl, rfl⟩

theorem unshiftExt_inv (s : AIState) (q : List Coord) (c : Coord)
    (hqu : ∀ x ∈ q, x ∉ s.shotsFired) (hqn : q.Nodup) :
    (∀ x ∈ unshiftExt s q c, x ∉ s.shotsFired) ∧ (unshiftExt s q c).Nodup := by
  unfold unshiftExt
  split
  · rename_i hguard
    obtain ⟨hg1, hg3⟩ := (Bool.and_eq_true _ _).mp hguard
    obtain ⟨_, hg2⟩ := (Bool.and_eq_true _ _).mp hg1
    constructor
    · intro x hx
      rcases List.mem_cons.mp hx with rfl | hx'
      · have h2' : s.hasShot x.row x.col = false := by simpa using hg2
        simpa [AIState.hasShot] using h2'
      · exact hqu x hx'
    · refine List.nodup_cons.mpr ⟨?_, hqn⟩
      have hg3' : inQueue q c = false := by simpa using hg3
      exact inQueue_false_not_mem hg3'
  · exact ⟨hqu, hqn⟩

theorem unshiftLineExtensions_inv (s : AIState) (q : List Coord) (line : List Coord)
    (hqu : ∀ x ∈ q, x ∉ s.shotsFired) (hqn : q.Nodup) :
    (∀ x ∈ unshiftLineExtensions s q line, x ∉ s.shotsFired) ∧
    (unshiftLineExtensions s q line).Nodup := by
  unfold unshiftLineExtensions
  cases line with
  | nil => exact ⟨hqu, hqn⟩
  | cons h t =>
    dsimp only
    split
    · obtain ⟨h1, h2⟩ := unshiftExt_inv s q _ hqu hqn
      exact unshiftExt_inv s _ _ h1 h2
    · obtain ⟨h1, h2⟩ := unshiftExt_inv s q _ hqu hqn
      exact unshiftExt_inv s _ _ h1 h2

theorem thirdPlusHitUpdate_inv (s : AIState) (coord : Coord) (s' : AIState)
    (hqu : ∀ c ∈ s.targetQueue, c ∉ s.shotsFired) (hqn : s.targetQueue.Nodup)
    (h : thirdPlusHitUpdate s coord = some s') :
    (∀ c ∈ s'.targetQueue, c ∉ s.shotsFired) ∧ s'.targetQueue.Nodup ∧
    s'.shotsFired = s.shotsFired ∧ s'.hits = s.hits := by
  unfold thirdPlusHitUpdate at h
  cases hrl : reduceLongest (findAllLines s) with
  | none =>
    rw [hrl] at h
    exact absurd h (by simp)
  | some bestLine =>
    rw [hrl] at h
    dsimp only at h
    split at h
    · injection h with h
      subst h
      unfold refocusOnLine
      cases bestLine with
      | nil => exact ⟨by simp, by simp, rfl, rfl⟩
      | cons bh bt =>
        dsimp only
        exact ⟨lineExtensions_unfired s _ _, lineExtensions_nodup s _ _, rfl, rfl⟩
    · have hpart : ∀ x ∈ (s.targetQueue.filter
          (fun t => (findAllLines s).filter
            (fun line => line.any (fun hh => hh.row == coord.row && hh.col == coord.col))
            |>.any (fun line => wouldExtendLine t line))) ++ (s.targetQueue.filter
          (fun t => !((findAllLines s).filter
            (fun line => line.any (fun hh => hh.row == coord.row && hh.col == coord.col))
            |>.any (fun line => wouldExtendLine t line)))), x ∈ s.targetQueue := by
        intro x hx
        rcases List.mem_append.mp hx with hm | hm
        · exact List.mem_of_mem_filter hm
        · exact List.mem_of_mem_filter hm
      have hpartperm := List.filter_append_perm
        (fun t => (findAllLines s).filter
          (fun line => line.any (fun hh => hh.row == coord.row && hh.col == coord.col))
          |>.any (fun line => wouldExtendLine t line)) s.targetQueue
      have hpu : ∀ x ∈ (s.targetQueue.filter
          (fun t => (findAllLines s).filter
            (fun line => line.any (fun hh => hh.row == coord.row && hh.col == coord.col))
            |>.any (fun line => wouldExtendLine t line))) ++ (s.targetQueue.filter
          (fun t => !((findAllLines s).filter
            (fun line => line.any (fun hh => hh.row == coord.row && hh.col == coord.col))
            |>.any (fun line => wouldExtendLine t line)))), x ∉ s.shotsFired :=
        fun x hx => hqu x (hpart x hx)
      have hpn : ((s.targetQueue.filter
          (fun t => (findAllLines s).filter
            (fun line => line.any (fun hh => hh.row == coord.row && hh.col == coord.col))
            |>.any (fun line => wouldExtendLine t line))) ++ (s.targetQueue.filter
          (fun t => !((findAllLines s).filter
            (fun line => line.any (fun hh => hh.row == coord.row && hh.col == coord.col))
            |>.any (fun line => wouldExtendLine t line))))).Nodup :=
        hpartperm.nodup_iff.mpr hqn
      split at h
      · injection h with h
        subst h
        dsimp only
        have := foldl_preserve
          (fun (q : List Coord) => (∀ x ∈ q, x ∉ s.shotsFired) ∧ q.Nodup)
          (fun q line => unshiftLineExtensions
            { s with targetQueue := _ } q line)
          (fun q line hq => unshiftLineExtensions_inv _ q line hq.1 hq.2)
          ((findAllLines s).filter
            (fun line => line.any (fun hh => hh.row == coord.row && hh.col == coord.col)))
          _ ⟨hpu, hpn⟩
        exact ⟨this.1, this.2, rfl, rfl⟩
      · injection h with h
        subst h
        exact ⟨hpu, hpn, rfl, rfl⟩

theorem reportHit_inv (s : AIState) (coord : Coord) (s' : AIState)
    (hqu : ∀ c ∈ s.targetQueue, c ∉ s.shotsFired) (hqn : s.targetQueue.Nodup)
    (h : reportHit s coord = some s') :
    (∀ c ∈ s'.targetQueue, c ∉ s.shotsFired) ∧ s'.targetQueue.Nodup ∧
    s'.shotsFired = s.shotsFired ∧ s'.hits = s.hits := by
  unfold reportHit at h
  split_ifs at h
  · injection h with h
    subst h
    exact ⟨(firstHitQueue_ok s coord).1, (firstHitQueue_ok s coord).2, rfl, rfl⟩
  · injection h with h
    subst h
    exact secondHitUpdate_inv s coord hqu hqn
  · exact thirdPlusHitUpdate_inv s coord s' hqu hqn h

theorem rebuild_engineInv (s₂ : AIState) (hq : s₂.targetQueue = []) :
    EngineInv (rebuildTargetQueue s₂) ∧
    (rebuildTargetQueue s₂).shotsFired = s₂.shotsFired := by
  have hr := rebuildTargetQueue_inv s₂ hq
  have hf := rebuildTargetQueue_frame s₂
  refine ⟨⟨?_, hr.2.1, ?_⟩, hf.1⟩
  · intro c hc
    rw [hf.1]
    exact hr.1 c hc
  · intro hh
    rw [hf.2.1] at hh
    exact hr.2.2 hh

theorem reportSunk_inv (s : AIState) (coord : Coord) (sunk : List Coord) :
    EngineInv (reportSunk s coord sunk) ∧
    (reportSunk s coord sunk).shotsFired = s.shotsFired := by
  unfold reportSunk
  dsimp only
  repeat' split
  all_goals
    first
    | exact ⟨⟨by simp, by simp, fun _ => rfl⟩, rfl⟩
    | (refine rebuild_engineInv _ ?_ <;> rfl)

theorem reportResult_inv (s : AIState) (coord : Coord) (res : ShotResult)
    (sunk : List Coord) (s' : AIState)
    (hinv : EngineInv s) (hcq : coord ∉ s.targetQueue)
    (h : reportResult s coord res sunk = some s') :
    EngineInv s' ∧ s'.shotsFired = addShot s.shotsFired coord := by
  obtain ⟨hqu, hqn, hqe⟩ := hinv
  have hqu' : ∀ c ∈ s.targetQueue, c ∉ addShot s.shotsFired coord := by
    intro c hc hmem
    rcases mem_addShot.mp hmem with hm | rfl
    · exact hqu c hc hm
    · exact hcq hc
  unfold reportResult at h
  cases res with
  | hit =>
    dsimp only at h
    set s₁ : AIState :=
      { s with
          shotsFired := addShot s.shotsFired coord
          mode := Mode.target
          lastHit := some coord
          hits := s.hits ++ [coord] } with hs₁
    obtain ⟨h1, h2, h3, h4⟩ := reportHit_inv s₁ coord s' hqu' hqn h
    refine ⟨⟨?_, h2, ?_⟩, ?_⟩
    · intro c hc
      rw [h3]
      exact h1 c hc
    · intro hh
      rw [h4] at hh
      exact absurd hh (by simp)
    · rw [h3]
  | miss =>
    dsimp only at h
    injection h with h
    subst h
    unfold reportMiss
    dsimp only
    split
    · split
      · split
        · set sm : AIState :=
            { s with
                shotsFired := addShot s.shotsFired coord
                misses := addShot s.misses coord
                targetQueue := [] } with hsm
          have hr := rebuildTargetQueue_inv sm rfl
          have hf := rebuildTargetQueue_frame sm
          refine ⟨⟨?_, hr.2.1, ?_⟩, ?_⟩
          · intro c hc
            rw [hf.1]
            exact hr.1 c hc
          · intro hh
            rw [hf.2.1] at hh
            exact hr.2.2 hh
          · exact hf.1
        · exact ⟨⟨hqu', hqn, fun hh => hqe hh⟩, rfl⟩
      · exact ⟨⟨hqu', hqn, fun hh => hqe hh⟩, rfl⟩
    · exact ⟨⟨hqu', hqn, fun hh => hqe hh⟩, rfl⟩
  | sunk =>
    dsimp only at h
    injection h with h
    subst h
    exact reportSunk_inv _ coord sunk

theorem coordGrid_nodup : coordGrid.Nodup := by decide

theorem coordGrid_length : coordGrid.length = 100 := by decide

theorem exists_unfired (fired : List Coord) (hlt : fired.length < 100) :
    ∃ p ∈ coordGrid, p ∉ fired := by
  by_contra hcon
  push_neg at hcon
  have hsub : coordGrid ⊆ fired := fun p hp => hcon p hp
  have hsp := coordGrid_nodup.subperm hsub
  have hle := hsp.length_le
  rw [coordGrid_length] at hle
  omega

theorem getNextShotCore_spec (ρ : Rng) (s₂ : AIState)
    (hqu : ∀ c ∈ s₂.targetQueue, c ∉ s₂.shotsFired) (hqn : s₂.targetQueue.Nodup)
    (hqe : s₂.hits = [] → s₂.targetQueue = []) :
    (getNextShotCore ρ s₂).2.shotsFired = s₂.shotsFired ∧
    EngineInv (getNextShotCore ρ s₂).2 ∧
    (getNextShotCore ρ s₂).1 ∉ (getNextShotCore ρ s₂).2.targetQueue ∧
    ((∃ p ∈ coordGrid, p ∉ s₂.shotsFired) → (getNextShotCore ρ s₂).1 ∉ s₂.shotsFired) := by
  unfold getNextShotCore
  cases hq : s₂.targetQueue with
  | cons shot rest =>
    dsimp only
    refine ⟨rfl, ⟨?_, ?_, ?_⟩, ?_, ?_⟩
    · intro c hc
      exact hqu c (by rw [hq]; exact List.mem_cons_of_mem _ hc)
    · exact (List.nodup_cons.mp (hq ▸ hqn)).2
    · intro hh
      rw [hqe hh] at hq
      exact absurd hq (by simp)
    · exact (List.nodup_cons.mp (hq ▸ hqn)).1
    · intro _
      exact hqu shot (by rw [hq]; exact List.mem_cons_self _ _)
  | nil =>
    dsimp only
    split
    · split
      · exact ⟨rfl, ⟨by simp [hq], by simp [hq], fun _ => by simp [hq]⟩, by simp [hq],
          fun hex => getSmartHuntShot_unfired _ _ hex⟩
      · exact ⟨rfl, ⟨by simp [hq], by simp [hq], fun _ => by simp [hq]⟩, by simp [hq],
          fun hex => getSmartHuntShot_unfired _ _ hex⟩
    · split
      · exact ⟨rfl, ⟨by simp [hq], by simp [hq], fun _ => by simp [hq]⟩, by simp [hq],
          fun hex => getSmartHuntShot_unfired _ _ hex⟩
      · exact ⟨rfl, ⟨by simp [hq], by simp [hq], fun _ => by simp [hq]⟩, by simp [hq],
          fun hex => getSmartHuntShot_unfired _ _ hex⟩

theorem getNextShot_spec (ρ : Rng) (s : AIState) (hinv : EngineInv s) :
    (getNextShot ρ s).2.shotsFired = s.shotsFired ∧
    EngineInv (getNextShot ρ s).2 ∧
    (getNextShot ρ s).1 ∉ (getNextShot ρ s).2.targetQueue ∧
    ((∃ p ∈ coordGrid, p ∉ s.shotsFired) → (getNextShot ρ s).1 ∉ s.shotsFired) := by
  obtain ⟨hqu, hqn, hqe⟩ := hinv
  unfold getNextShot
  split
  · dsimp only
    split
    · rename_i hlen
      have hq0 : s.targetQueue = [] := by
        have := of_decide_eq_true hlen
        exact List.length_eq_zero.mp (by simpa using this)
      have hr := rebuildTargetQueue_inv ({ s with mode := Mode.target }) hq0
      have hf := rebuildTargetQueue_frame ({ s with mode := Mode.target })
      have hspec := getNextShotCore_spec ρ (rebuildTargetQueue { s with mode := Mode.target })
        (by rw [hf.1]; exact hr.1) hr.2.1
        (fun hh => hr.2.2 (by rw [hf.2.1] at hh; exact hh))
      refine ⟨?_, hspec.2.1, hspec.2.2.1, ?_⟩
      · rw [hspec.1, hf.1]
      · intro hex
        have h4 := hspec.2.2.2 (by rw [hf.1]; exact hex)
        rw [hf.1] at h4
        exact h4
    · exact getNextShotCore_spec ρ ({ s with mode := Mode.target }) hqu hqn hqe
  · rename_i hlen
    have hh : s.hits = [] := by
      simpa using List.length_eq_zero.mp (by omega)
    have hq0 := hqe hh
    dsimp only
    exact ⟨rfl, ⟨by simp [hq0], by simp [hq0], fun _ => by simp [hq0]⟩, by simp [hq0],
      fun hex => getSmartHuntShot_unfired _ _ hex⟩

theorem runRounds_nodup_aux (inputs : List RoundInput) (s : AIState)
    (hinv : EngineInv s) (hlen : s.shotsFired.length + inputs.length ≤ 100) :
    ∀ sf shots, runRounds s inputs = some (sf, shots) →
      shots.Nodup ∧ ∀ x ∈ shots, x ∉ s.shotsFired := by
  induction inputs generalizing s with
  | nil =>
    intro sf shots h
    simp only [runRounds, Option.some.injEq, Prod.mk.injEq] at h
    rw [← h.2]
    simp
  | cons inp rest ih =>
    intro sf shots h
    unfold runRounds at h
    dsimp only at h
    have hspec := getNextShot_spec inp.ρ s ⟨hinv.1, hinv.2.1, hinv.2.2⟩
    cases hrep : reportResult (getNextShot inp.ρ s).2 (getNextShot inp.ρ s).1
        inp.result inp.sunkCoords with
    | none => rw [hrep] at h; exact absurd h (by simp)
    | some s₂ =>
      rw [hrep] at h
      dsimp only at h
      have hrinv := reportResult_inv _ _ _ _ _ hspec.2.1 hspec.2.2.1 hrep
      cases hrun : runRounds s₂ rest with
      | none => rw [hrun] at h; exact absurd h (by simp)
      | some p =>
        obtain ⟨sf', shots'⟩ := p
        rw [hrun] at h
        dsimp only at h
        simp only [Option.some.injEq, Prod.mk.injEq] at h
        obtain ⟨hsf, hshots⟩ := h
        have hlen₂ : s₂.shotsFired.length + rest.length ≤ 100 := by
          have h1 := length_addShot (getNextShot inp.ρ s).2.shotsFired (getNextShot inp.ρ s).1
          rw [hspec.1] at h1
          rw [hrinv.2, hspec.1]
          have h2 := length_addShot s.shotsFired (getNextShot inp.ρ s).1
          simp only [List.length_cons] at hlen
          omega
        have hih := ih s₂ hrinv.1 hlen₂ sf' shots' hrun
        have hshot_new : (getNextShot inp.ρ s).1 ∉ s.shotsFired := by
          refine hspec.2.2.2 (exists_unfired s.shotsFired ?_)
          simp only [List.length_cons] at hlen
          omega
        have hmem₂ : (getNextShot inp.ρ s).1 ∈ s₂.shotsFired := by
          rw [hrinv.2, hspec.1]
          exact self_mem_addShot _ _
        rw [← hshots]
        constructor
        · refine List.nodup_cons.mpr ⟨?_, hih.1⟩
          intro hmem
          exact hih.2 _ hmem hmem₂
        · intro x hx
          rcases List.mem_cons.mp hx with rfl | hx'
          · exact hshot_new
          · intro hxs
            refine hih.2 x hx' ?_
            rw [hrinv.2, hspec.1]
            exact subset_addShot _ _ hxs

/-- C1 (amended): under the strict alternation discipline — each coordinate a
fresh engine returns is reported back before the next request — the shots
returned over the first at most 100 rounds are pairwise distinct, whatever
outcomes are reported.  (Beyond 100 rounds every cell has been fired and the
hunt fallback returns `(0,0)` repeatedly, so the bound is sharp.) -/
theorem C1_first100_distinct (inputs : List RoundInput) (sf : AIState)
    (shots : List Coord) (hlen : inputs.length ≤ 100)
    (h : runRounds initialState inputs = some (sf, shots)) :
    shots.Nodup := by
  have hinv : EngineInv initialState := ⟨by simp [initialState], by simp [initialState],
    fun _ => rfl⟩
  have hlen' : initialState.shotsFired.length + inputs.length ≤ 100 := by
    simpa [initialState] using hlen
  exact (runRounds_nodup_aux inputs initialState hinv hlen' sf shots h).1

set_option maxRecDepth 8000 in
theorem C1_first100_distinct_witness :
    ([⟨rng0, ShotResult.miss, []⟩] : List RoundInput).length ≤ 100 ∧
    runRounds initialState [⟨rng0, ShotResult.miss, []⟩] = some (w1state, [⟨0, 0⟩]) ∧
    ([(⟨0, 0⟩ : Coord)]).Nodup :=
  ⟨by decide, by decide,
    C1_first100_distinct [⟨rng0, ShotResult.miss, []⟩] w1state [⟨0, 0⟩]
      (by decide) (by decide)⟩

/-- The run of the C1 counterexample session: every ship cell of a fully
placed board is reported sunk in turn, every remaining cell reported as the
miss it is, and then the engine is asked twice (with the first answer duly
reported before the second ask). -/
def ceRun : Option (SessionState × List Coord) :=
  runSession ⟨ceBoard, createShips, initialState, none⟩ ceTrace

set_option maxRecDepth 100000 in
/-- C1 (counterexample): the literal claim — every discipline-respecting
session against a real board yields pairwise-distinct shots — is false: once
all 100 cells have been fired, the hunt fallback returns `(0,0)` again. -/
theorem C1_counterexample : ¬ C1Claim := by
  intro hclaim
  have hmap : ceRun.map Prod.snd = some [⟨0, 0⟩, ⟨0, 0⟩] := by decide
  obtain ⟨out, hout, hsnd⟩ := Option.map_eq_some'.mp hmap
  have hnodup := hclaim ceBoard createShips ceTrace out hout
  rw [hsnd] at hnodup
  exact absurd hnodup (by decide)
